import Mathlib

/-!
Verification development for the stormdb repository (an in-memory key/value
store speaking a RESP2-style wire protocol).

The definitions below are a shallow embedding of the Rust sources:

* `crates/protocol/src/frame.rs`  — RESP2 frame type, `check`, `parse`, `encode`;
* `crates/protocol/src/parse.rs`  — argument cursor over an array frame;
* `crates/protocol/src/command.rs`— `Command`, `from_frame`, `to_frame`;
* `crates/storage/src/entry.rs`   — `Entry`/`Value`;
* `crates/storage/src/db.rs`      — `Db::{set, del, incr_by, lpush, rpush, list_pop, lrange}`;
* `crates/storage/src/aof.rs`     — `apply_command` and the `replay_aof` loop.

Modelling conventions:

* Rust byte slices and `Bytes` become `List Nat` (each element a byte value);
  Rust `String`s are represented by their UTF-8 byte lists.
* Machine integers become `Nat`/`Int`; `as usize` casts of an `i64` take the
  value modulo 2^64.
* `tokio::time::Instant` becomes a `Nat` instant; every store operation takes
  the instant `now` at which it runs (`Instant::now()` in the source).
* An `&mut Cursor<&[u8]>` becomes explicit state passing of a `Cur` value;
  every cursor primitive returns the resulting cursor even on error, exactly
  as the mutable borrow leaves partial advancement visible in Rust.
* The recursive `Frame::check` / `Frame::parse` take a fuel argument; the
  public entry points supply `buf.length + 1` fuel, which is shown sufficient
  on every path the theorems traverse (each recursion level consumes at least
  one byte of the buffer).
-/

/-- Byte buffers: Rust `&[u8]` / `Bytes` as a list of byte values. -/
abbrev Buf := List Nat

/-- ASCII bytes of a Lean string literal (used only for ASCII literals,
where Rust's UTF-8 encoding is the identity on code points). -/
def ascii (s : String) : Buf := s.data.map Char.toNat

/-- A read cursor over a byte slice: `std::io::Cursor<&[u8]>`. -/
structure Cur where
  buf : Buf
  pos : Nat
  deriving Repr, DecidableEq

/-- `ProtocolError` from `crates/common/src/error.rs` (payload strings of
`InvalidInteger` / `InvalidEncoding` are dropped: they only carry messages). -/
inductive PErr where
  | incomplete
  | invalidFrameType (b : Nat)
  | invalidInteger
  | invalidBulkLength (n : Int)
  | frameTooLarge (n : Nat)
  | invalidEncoding
  deriving Repr, DecidableEq

/-- `MAX_FRAME_SIZE` from `crates/common/src/lib.rs`. -/
def MAX_FRAME_SIZE : Nat := 64 * 1024 * 1024

/-- `get_u8`: fails with `Incomplete` when no byte remains, otherwise reads
one byte and advances the cursor. -/
def getU8 (c : Cur) : Except PErr Nat × Cur :=
  match c.buf.drop c.pos with
  | [] => (.error .incomplete, c)
  | b :: _ => (.ok b, ⟨c.buf, c.pos + 1⟩)

/-- Index of the first `\r` immediately followed by `\n` in a byte list
(the pairwise scan of `get_line` in frame.rs; a trailing lone `\r` does not
count, matching the loop bound `end.saturating_sub(1)`). -/
def crlfAt : Buf → Option Nat
  | [] => none
  | b :: rest =>
    if b = 13 ∧ rest.headD 0 = 10 then some 0
    else (crlfAt rest).map (· + 1)

/-- `get_line`: returns the bytes before the first CRLF at or after the cursor
and advances past the CRLF; `Incomplete` (cursor untouched) if no CRLF. -/
def getLine (c : Cur) : Except PErr Buf × Cur :=
  match crlfAt (c.buf.drop c.pos) with
  | some k => (.ok ((c.buf.drop c.pos).take k), ⟨c.buf, c.pos + k + 2⟩)
  | none => (.error .incomplete, c)

/-- `skip(n)`: advance `n` bytes, `Incomplete` if fewer remain. -/
def skip (n : Nat) (c : Cur) : Except PErr Unit × Cur :=
  if c.buf.length - c.pos < n then (.error .incomplete, c)
  else (.ok (), ⟨c.buf, c.pos + n⟩)

mutual
/-- UTF-8 validity of a byte list, following the table used by Rust's
`str::from_utf8` (rejecting overlong forms and surrogate code points): the
first continuation byte of a multi-byte form is constrained to a
lead-dependent range, subsequent ones to `0x80..=0xBF`. -/
def validUtf8 (l : Buf) : Bool :=
  match l with
  | [] => true
  | b :: rest =>
    if b < 0x80 then validUtf8 rest
    else if 0xC2 ≤ b && b ≤ 0xDF then utf8Cont1 0x80 0xBF rest
    else if b = 0xE0 then utf8Cont2 0xA0 0xBF rest
    else if (0xE1 ≤ b && b ≤ 0xEC) || b = 0xEE || b = 0xEF then utf8Cont2 0x80 0xBF rest
    else if b = 0xED then utf8Cont2 0x80 0x9F rest
    else if b = 0xF0 then utf8Cont3 0x90 0xBF rest
    else if 0xF1 ≤ b && b ≤ 0xF3 then utf8Cont3 0x80 0xBF rest
    else if b = 0xF4 then utf8Cont3 0x80 0x8F rest
    else false
/-- One continuation byte in `lo..=hi`, then a fresh sequence. -/
def utf8Cont1 (lo hi : Nat) (l : Buf) : Bool :=
  match l with
  | c1 :: r => (lo ≤ c1 && c1 ≤ hi) && validUtf8 r
  | [] => false
/-- A continuation byte in `lo..=hi`, then one more in `0x80..=0xBF`. -/
def utf8Cont2 (lo hi : Nat) (l : Buf) : Bool :=
  match l with
  | c1 :: r => (lo ≤ c1 && c1 ≤ hi) && utf8Cont1 0x80 0xBF r
  | [] => false
/-- A continuation byte in `lo..=hi`, then two more in `0x80..=0xBF`. -/
def utf8Cont3 (lo hi : Nat) (l : Buf) : Bool :=
  match l with
  | c1 :: r => (lo ≤ c1 && c1 ≤ hi) && utf8Cont2 0x80 0xBF r
  | [] => false
end

/-- Digit accumulator of a decimal literal; `none` on a non-digit byte. -/
def digitsValAux (acc : Nat) : Buf → Option Nat
  | [] => some acc
  | b :: rest =>
    if 48 ≤ b ∧ b ≤ 57 then digitsValAux (acc * 10 + (b - 48)) rest else none

/-- Value of a non-empty all-digit byte list. -/
def digitsVal (l : Buf) : Option Nat :=
  match l with
  | [] => none
  | _ => digitsValAux 0 l

/-- Rust `str::parse::<i64>`: optional `+`/`-` sign, one or more ASCII digits,
and the value must fit in `i64` (the incremental checked arithmetic of the
standard library is equivalent to this range check for decimal digits). -/
def rustParseI64 (l : Buf) : Option Int :=
  match l with
  | [] => none
  | b :: rest =>
    if b = 43 then
      (digitsVal rest).bind fun v =>
        if (v : Int) ≤ 2 ^ 63 - 1 then some (v : Int) else none
    else if b = 45 then
      (digitsVal rest).bind fun v =>
        if (v : Int) ≤ 2 ^ 63 then some (-(v : Int)) else none
    else
      (digitsVal (b :: rest)).bind fun v =>
        if (v : Int) ≤ 2 ^ 63 - 1 then some (v : Int) else none

/-- `get_decimal`: a line, UTF-8 checked, parsed as `i64`; both the UTF-8
failure and the parse failure map to `InvalidInteger` in the source. -/
def getDecimal (c : Cur) : Except PErr Int × Cur :=
  match getLine c with
  | (.ok line, c1) =>
    if validUtf8 line then
      match rustParseI64 line with
      | some n => (.ok n, c1)
      | none => (.error .invalidInteger, c1)
    else (.error .invalidInteger, c1)
  | (.error e, c1) => (.error e, c1)

/-- `i64 as usize`: reduce modulo 2^64. -/
def usizeOfInt (i : Int) : Nat := (i % (2 ^ 64 : Int)).toNat

/-- RESP2 frames (`Frame` in frame.rs). `simple`/`error` payloads are the
UTF-8 bytes of the Rust `String`. -/
inductive FrameV where
  | simple (s : Buf)
  | error (s : Buf)
  | integer (n : Int)
  | bulk (d : Buf)
  | null
  | array (l : List FrameV)
  deriving Repr

/-- Decimal digits of a natural number, least significant first. -/
def natDigitsRev (n : Nat) : Buf :=
  if h : n < 10 then [48 + n] else (48 + n % 10) :: natDigitsRev (n / 10)
  termination_by n
  decreasing_by omega

/-- Decimal representation of a natural number (Rust `usize::to_string`). -/
def natToStr (n : Nat) : Buf := (natDigitsRev n).reverse

/-- Decimal representation of an integer (Rust `i64::to_string`). -/
def intToStr (n : Int) : Buf :=
  if n < 0 then 45 :: natToStr (-n).toNat else natToStr n.toNat

mutual
/-- `Frame::encode` (frame.rs): canonical RESP2 byte form. -/
def encodeF : FrameV → Buf
  | .simple s => 43 :: (s ++ [13, 10])
  | .error s => 45 :: (s ++ [13, 10])
  | .integer n => 58 :: (intToStr n ++ [13, 10])
  | .bulk d => 36 :: (natToStr d.length ++ [13, 10] ++ d ++ [13, 10])
  | .null => [36, 45, 49, 13, 10]
  | .array l => 42 :: (natToStr l.length ++ [13, 10] ++ encodeFs l)
/-- Concatenated encodings of the children of an array frame. -/
def encodeFs : List FrameV → Buf
  | [] => []
  | f :: fs => encodeF f ++ encodeFs fs
end

/-- The `for _ in 0..count { Frame::check(src)?; }` loop of `Frame::check`. -/
def checkN (ck : Cur → Except PErr Unit × Cur) : Nat → Cur → Except PErr Unit × Cur
  | 0, c => (.ok (), c)
  | n + 1, c =>
    match ck c with
    | (.ok _, c1) => checkN ck n c1
    | (.error e, c1) => (.error e, c1)

/-- `Frame::check` (frame.rs) with explicit fuel; fuel is consumed one unit
per array nesting level, and `checkF 0` (fuel exhaustion) is unreachable from
the public entry point on the paths established by the theorems below. -/
def checkF : Nat → Cur → Except PErr Unit × Cur
  | 0, c => (.error .incomplete, c)
  | fuel + 1, c =>
    match getU8 c with
    | (.error e, c1) => (.error e, c1)
    | (.ok b, c1) =>
      if b = 43 ∨ b = 45 then
        match getLine c1 with
        | (.ok _, c2) => (.ok (), c2)
        | (.error e, c2) => (.error e, c2)
      else if b = 58 then
        match getLine c1 with
        | (.ok _, c2) => (.ok (), c2)
        | (.error e, c2) => (.error e, c2)
      else if b = 36 then
        match getDecimal c1 with
        | (.error e, c2) => (.error e, c2)
        | (.ok len, c2) =>
          if len = -1 then (.ok (), c2)
          else if len < 0 then (.error (.invalidBulkLength len), c2)
          else if MAX_FRAME_SIZE < len.toNat then (.error (.frameTooLarge len.toNat), c2)
          else skip (len.toNat + 2) c2
      else if b = 42 then
        match getDecimal c1 with
        | (.error e, c2) => (.error e, c2)
        | (.ok count, c2) =>
          if count = -1 then (.ok (), c2)
          else if count < 0 then (.error (.invalidBulkLength count), c2)
          else checkN (checkF fuel) count.toNat c2
      else (.error (.invalidFrameType b), c1)

/-- The child-collection loop of `Frame::parse` on an array frame. -/
def parseN (pr : Cur → Except PErr FrameV × Cur) :
    Nat → Cur → Except PErr (List FrameV) × Cur
  | 0, c => (.ok [], c)
  | n + 1, c =>
    match pr c with
    | (.ok f, c1) =>
      match parseN pr n c1 with
      | (.ok fs, c2) => (.ok (f :: fs), c2)
      | (.error e, c2) => (.error e, c2)
    | (.error e, c1) => (.error e, c1)

/-- `Frame::parse` (frame.rs) with explicit fuel (same regime as `checkF`). -/
def parseF : Nat → Cur → Except PErr FrameV × Cur
  | 0, c => (.error .incomplete, c)
  | fuel + 1, c =>
    match getU8 c with
    | (.error e, c1) => (.error e, c1)
    | (.ok b, c1) =>
      if b = 43 then
        match getLine c1 with
        | (.ok line, c2) =>
          if validUtf8 line then (.ok (.simple line), c2)
          else (.error .invalidEncoding, c2)
        | (.error e, c2) => (.error e, c2)
      else if b = 45 then
        match getLine c1 with
        | (.ok line, c2) =>
          if validUtf8 line then (.ok (.error line), c2)
          else (.error .invalidEncoding, c2)
        | (.error e, c2) => (.error e, c2)
      else if b = 58 then
        match getDecimal c1 with
        | (.ok n, c2) => (.ok (.integer n), c2)
        | (.error e, c2) => (.error e, c2)
      else if b = 36 then
        match getDecimal c1 with
        | (.error e, c2) => (.error e, c2)
        | (.ok len, c2) =>
          if len = -1 then (.ok .null, c2)
          else
            let lenU := usizeOfInt len
            if c2.buf.length - c2.pos < lenU + 2 then (.error .incomplete, c2)
            else
              (.ok (.bulk ((c2.buf.drop c2.pos).take lenU)),
                ⟨c2.buf, c2.pos + lenU + 2⟩)
      else if b = 42 then
        match getDecimal c1 with
        | (.error e, c2) => (.error e, c2)
        | (.ok count, c2) =>
          if count = -1 then (.ok .null, c2)
          else
            match parseN (parseF fuel) (usizeOfInt count) c2 with
            | (.ok fs, c3) => (.ok (.array fs), c3)
            | (.error e, c3) => (.error e, c3)
      else (.error (.invalidFrameType b), c1)

/-- Public `Frame::check` over a cursor (fuel `buf.length + 1`). -/
def frameCheck (c : Cur) : Except PErr Unit × Cur :=
  checkF (c.buf.length + 1) c

/-- Public `Frame::parse` over a cursor (fuel `buf.length + 1`). -/
def frameParse (c : Cur) : Except PErr FrameV × Cur :=
  parseF (c.buf.length + 1) c

/-- True when a byte list contains neither CR nor LF. -/
def noCRLF (s : Buf) : Bool := s.all fun b => decide (b ≠ 13 ∧ b ≠ 10)

mutual
/-- Nesting depth of a frame (1 for leaves); drives fuel sufficiency. -/
def frameDepth : FrameV → Nat
  | .array l => frameDepthList l + 1
  | _ => 1
/-- Maximum nesting depth over a list of frames. -/
def frameDepthList : List FrameV → Nat
  | [] => 0
  | f :: fs => max (frameDepth f) (frameDepthList fs)
end

mutual
/-- Well-formedness of a frame, as assumed by the spec's round-trip law:
simple/error payloads are CR/LF-free valid UTF-8 (the Rust `String`
invariant plus line discipline), integers fit in `i64` (the Rust type),
bulk payloads are shorter than 2^31, and array lengths fit in `i64`
(a consequence of Rust's `Vec` allocation bound). -/
def wfF : FrameV → Bool
  | .simple s => noCRLF s && validUtf8 s
  | .error s => noCRLF s && validUtf8 s
  | .integer n => decide (-(2 ^ 63) ≤ n ∧ n < 2 ^ 63)
  | .bulk d => decide (d.length < 2 ^ 31)
  | .null => true
  | .array l => decide (l.length < 2 ^ 63) && wfListF l
/-- `wfF` on every element of a list. -/
def wfListF : List FrameV → Bool
  | [] => true
  | f :: fs => wfF f && wfListF fs
end

mutual
/-- All bulk payloads of the frame are within `MAX_FRAME_SIZE`, the limit
`Frame::check` enforces with `FrameTooLarge`. -/
def withinLimitF : FrameV → Bool
  | .bulk d => decide (d.length ≤ MAX_FRAME_SIZE)
  | .array l => withinLimitListF l
  | _ => true
/-- `withinLimitF` on every element of a list. -/
def withinLimitListF : List FrameV → Bool
  | [] => true
  | f :: fs => withinLimitF f && withinLimitListF fs
end

/-- `StorageError` from `crates/common/src/error.rs`. -/
inductive StorageError where
  | wrongType
  | notAnInteger
  | keyNotFound
  deriving Repr, DecidableEq

/-- `Value` from `crates/storage/src/entry.rs`: the `VecDeque` of a list is
modelled head-first as a Lean list. -/
inductive ValueV where
  | str (data : Buf)
  | list (items : List Buf)
  deriving Repr, DecidableEq

/-- `Entry` from entry.rs: value plus optional absolute deadline. -/
structure EntryV where
  value : ValueV
  expiresAt : Option Nat
  deriving Repr, DecidableEq

/-- `Entry::is_expired`: `now ≥ expires_at` when a deadline is present. -/
def EntryV.isExpired (e : EntryV) (now : Nat) : Bool :=
  match e.expiresAt with
  | some t => decide (t ≤ now)
  | none => false

/-- The keyspace (`DashMap<String, Entry>`) as an association list with
unique keys; iteration order is never observed by the modelled operations. -/
abbrev Store := List (Buf × EntryV)

/-- Lookup a key in the store. -/
def storeGet : Store → Buf → Option EntryV
  | [], _ => none
  | (k', e) :: rest, k => if k' = k then some e else storeGet rest k

/-- Insert/replace a key's entry (`DashMap::insert`). -/
def storeInsert : Store → Buf → EntryV → Store
  | [], k, e => [(k, e)]
  | (k', e') :: rest, k, e =>
    if k' = k then (k, e) :: rest else (k', e') :: storeInsert rest k e

/-- Remove a key (`DashMap::remove`). -/
def storeRemove : Store → Buf → Store
  | [], _ => []
  | (k', e') :: rest, k => if k' = k then rest else (k', e') :: storeRemove rest k

/-- `SetCondition` from command.rs. -/
inductive SetCond where
  | nx
  | xx
  deriving Repr, DecidableEq

/-- `SetOptions` from command.rs. -/
structure SetOptionsV where
  expireMs : Option Nat
  condition : Option SetCond
  deriving Repr, DecidableEq

namespace Db

/-- `Db::set` (db.rs): evaluates an NX/XX condition against *physical* key
presence (`contains_key`, with no expiry test), then drops an expired entry
and installs the new string entry. The TTL-index insertion and the reaper
notification touch no keyspace state and are omitted. Returns the `Ok(bool)`
applied flag plus the updated keyspace. -/
def set (s : Store) (now : Nat) (key : Buf) (value : Buf) (opts : SetOptionsV) :
    Bool × Store :=
  let expiresAt := opts.expireMs.map fun ms => now + ms
  let keyExists := (storeGet s key).isSome
  let condFail :=
    match opts.condition with
    | some .nx => keyExists
    | some .xx => !keyExists
    | none => false
  if condFail then (false, s)
  else
    let s1 :=
      match storeGet s key with
      | some e => if e.isExpired now then storeRemove s key else s
      | none => s
    (true, storeInsert s1 key ⟨.str value, expiresAt⟩)

/-- `Db::del` (db.rs): removes each key in order, counting every *physically*
present entry (no expiry test anywhere in the loop). -/
def del (s : Store) (keys : List Buf) : Nat × Store :=
  match keys with
  | [] => (0, s)
  | k :: rest =>
    let hit := (storeGet s k).isSome
    let (c, s2) := del (storeRemove s k) rest
    ((if hit then 1 else 0) + c, s2)

/-- `Db::incr_by` (db.rs): entry API with `or_insert` default `"0"`, expired
entries reset to `"0"` with no deadline, string parsed as `i64`, checked add,
textual write-back; list values give `WrongType`. The final keyspace holds the
entry exactly as the DashMap entry guard leaves it. -/
def incrBy (s : Store) (now : Nat) (key : Buf) (delta : Int) :
    Except StorageError Int × Store :=
  let e0 :=
    match storeGet s key with
    | some e => e
    | none => ⟨.str [48], none⟩
  let e1 := if e0.isExpired now then ⟨.str [48], none⟩ else e0
  match e1.value with
  | .str data =>
    if validUtf8 data then
      match rustParseI64 data with
      | some n =>
        if -(2 ^ 63) ≤ n + delta ∧ n + delta ≤ 2 ^ 63 - 1 then
          (.ok (n + delta), storeInsert s key ⟨.str (intToStr (n + delta)), e1.expiresAt⟩)
        else (.error .notAnInteger, storeInsert s key e1)
      | none => (.error .notAnInteger, storeInsert s key e1)
    else (.error .notAnInteger, storeInsert s key e1)
  | .list _ => (.error .wrongType, storeInsert s key e1)

/-- `Db::incr`. -/
def incr (s : Store) (now : Nat) (key : Buf) : Except StorageError Int × Store :=
  incrBy s now key 1

/-- `Db::decr`. -/
def decr (s : Store) (now : Nat) (key : Buf) : Except StorageError Int × Store :=
  incrBy s now key (-1)

/-- `Db::lpush` (db.rs): create-on-demand (fresh list for a missing or expired
entry), then `push_front` each value in argument order. -/
def lpush (s : Store) (now : Nat) (key : Buf) (values : List Buf) :
    Except StorageError Nat × Store :=
  let e0 :=
    match storeGet s key with
    | some e => e
    | none => ⟨.list [], none⟩
  let e1 := if e0.isExpired now then ⟨.list [], none⟩ else e0
  match e1.value with
  | .list items =>
    let newItems := values.foldl (fun acc v => v :: acc) items
    (.ok newItems.length, storeInsert s key ⟨.list newItems, e1.expiresAt⟩)
  | .str _ => (.error .wrongType, storeInsert s key e1)

/-- `Db::rpush` (db.rs): as `lpush` but `push_back`. -/
def rpush (s : Store) (now : Nat) (key : Buf) (values : List Buf) :
    Except StorageError Nat × Store :=
  let e0 :=
    match storeGet s key with
    | some e => e
    | none => ⟨.list [], none⟩
  let e1 := if e0.isExpired now then ⟨.list [], none⟩ else e0
  match e1.value with
  | .list items =>
    let newItems := values.foldl (fun acc v => acc ++ [v]) items
    (.ok newItems.length, storeInsert s key ⟨.list newItems, e1.expiresAt⟩)
  | .str _ => (.error .wrongType, storeInsert s key e1)

/-- `Db::list_pop` (db.rs): missing key yields `[]`; an expired entry is
removed and yields `[]`; otherwise pops `min(count_or_1, len)` items from the
requested end (the one-at-a-time pop loop in closed form: popping `n` from the
front takes the first `n` items in order; from the back, the last `n` items in
back-to-front order) and removes the key if the list is drained. -/
def listPop (s : Store) (now : Nat) (key : Buf) (count : Option Nat)
    (fromLeft : Bool) : Except StorageError (List Buf) × Store :=
  match storeGet s key with
  | none => (.ok [], s)
  | some e =>
    if e.isExpired now then (.ok [], storeRemove s key)
    else
      match e.value with
      | .list items =>
        let n := min (count.getD 1) items.length
        let popped := if fromLeft then items.take n else (items.reverse.take n)
        let rest := if fromLeft then items.drop n else items.take (items.length - n)
        if rest.isEmpty then (.ok popped, storeRemove s key)
        else (.ok popped, storeInsert s key ⟨.list rest, e.expiresAt⟩)
      | .str _ => (.error .wrongType, s)

/-- `Db::lpop`. -/
def lpop (s : Store) (now : Nat) (key : Buf) (count : Option Nat) :
    Except StorageError (List Buf) × Store :=
  listPop s now key count true

/-- `Db::rpop`. -/
def rpop (s : Store) (now : Nat) (key : Buf) (count : Option Nat) :
    Except StorageError (List Buf) × Store :=
  listPop s now key count false

end Db

/-- Outcome of `Db::lrange`: a value, a storage error, or a Rust panic
(the `list.range(s..=e)` call aborts when the end index is out of range or
`e + 1` overflows `usize`, exactly the `slice::range` panic conditions). -/
inductive RangeOut where
  | ok (items : List Buf)
  | err (e : StorageError)
  | panic
  deriving Repr, DecidableEq

namespace Db

/-- `Db::lrange` (db.rs): Redis-style endpoint normalization computed in `i64`
and then cast `as usize` (modulo 2^64 — in particular `-1` becomes
`2^64 - 1`), the `s > e || s >= len` empty guard, and the `range(s..=e)`
extraction, which panics when the inclusive end does not fit the list. -/
def lrange (s : Store) (now : Nat) (key : Buf) (start stop : Int) :
    RangeOut × Store :=
  match storeGet s key with
  | none => (.ok [], s)
  | some e =>
    if e.isExpired now then (.ok [], storeRemove s key)
    else
      match e.value with
      | .str _ => (.err .wrongType, s)
      | .list items =>
        let len : Int := items.length
        let sIdx : Nat :=
          if start < 0 then usizeOfInt (max (len + start) 0)
          else usizeOfInt (min start len)
        let eIdx : Nat :=
          if stop < 0 then usizeOfInt (max (len + stop) (-1))
          else usizeOfInt (min stop (len - 1))
        if sIdx > eIdx ∨ sIdx ≥ items.length then (.ok [], s)
        else if items.length ≤ eIdx then (.panic, s)
        else (.ok ((items.drop sIdx).take (eIdx + 1 - sIdx)), s)

end Db

/-- `CommandError` from error.rs (message payloads dropped; `WrongArity`
keeps the command name it reports). -/
inductive CommandError where
  | unknownCmd (name : Buf)
  | wrongArity (name : Buf)
  | invalidSetOption
  | invalidArgument
  deriving Repr, DecidableEq

/-- `Command` from command.rs. The `usize` counts of `LPop`/`RPop` are `Nat`. -/
inductive CommandV where
  | ping (msg : Option Buf)
  | echo (msg : Buf)
  | get (key : Buf)
  | set (key : Buf) (value : Buf) (options : SetOptionsV)
  | del (keys : List Buf)
  | existsCmd (keys : List Buf)
  | incr (key : Buf)
  | decr (key : Buf)
  | lpush (key : Buf) (values : List Buf)
  | rpush (key : Buf) (values : List Buf)
  | lpop (key : Buf) (count : Option Nat)
  | rpop (key : Buf) (count : Option Nat)
  | lrange (key : Buf) (start stop : Int)
  | subscribe (channels : List Buf)
  | unsubscribe (channels : List Buf)
  | publish (channel : Buf) (message : Buf)
  | unknown (name : Buf)
  deriving Repr, DecidableEq

/-- ASCII upper-casing of a byte list. Rust's `String::to_uppercase` is
Unicode-aware but agrees with this on ASCII bytes, and every name the decoder
compares against is ASCII. -/
def asciiUpper (s : Buf) : Buf :=
  s.map fun b => if 97 ≤ b ∧ b ≤ 122 then b - 32 else b

/-- `Parse::next_string` applied to one frame: a simple string is returned
as-is (it is already a `String`), a bulk is UTF-8 validated, anything else is
an invalid argument. -/
def frameAsString : FrameV → Except CommandError Buf
  | .simple s => .ok s
  | .bulk d => if validUtf8 d then .ok d else .error .invalidArgument
  | _ => .error .invalidArgument

/-- `Parse::next_bytes` applied to one frame. -/
def frameAsBytes : FrameV → Except CommandError Buf
  | .bulk d => .ok d
  | .simple s => .ok s
  | _ => .error .invalidArgument

/-- `Parse::next_int` applied to one frame: integer frames pass through, bulk
payloads are UTF-8 checked and parsed as `i64`, simple strings parsed as
`i64` (they are `String`s already, so no separate UTF-8 step in the source). -/
def frameAsInt : FrameV → Except CommandError Int
  | .integer n => .ok n
  | .bulk d =>
    if validUtf8 d then
      match rustParseI64 d with
      | some n => .ok n
      | none => .error .invalidArgument
    else .error .invalidArgument
  | .simple s =>
    match rustParseI64 s with
    | some n => .ok n
    | none => .error .invalidArgument
  | _ => .error .invalidArgument

/-- The `while has_remaining { next_string } ` collection loop. -/
def collectStrings : List FrameV → Except CommandError (List Buf)
  | [] => .ok []
  | p :: rest =>
    match frameAsString p with
    | .error e => .error e
    | .ok s =>
      match collectStrings rest with
      | .ok ss => .ok (s :: ss)
      | .error e => .error e

/-- The `while has_remaining { next_bytes } ` collection loop. -/
def collectBytes : List FrameV → Except CommandError (List Buf)
  | [] => .ok []
  | p :: rest =>
    match frameAsBytes p with
    | .error e => .error e
    | .ok s =>
      match collectBytes rest with
      | .ok ss => .ok (s :: ss)
      | .error e => .error e

/-- The option loop of `parse_set` (command.rs): tokens upper-cased and
matched against EX / PX / NX / XX until the arguments are exhausted; EX values
are seconds (multiplied by 1000), both require a strictly positive integer,
and the `as u64` conversions wrap modulo 2^64. -/
def parseSetOpts (acc : SetOptionsV) : List FrameV → Except CommandError SetOptionsV
  | [] => .ok acc
  | p :: rest =>
    match frameAsString p with
    | .error e => .error e
    | .ok tok0 =>
      let tok := asciiUpper tok0
      if tok = ascii "EX" then
        match rest with
        | [] => .error .invalidArgument
        | q :: rest2 =>
          match frameAsInt q with
          | .error e => .error e
          | .ok secs =>
            if secs ≤ 0 then .error .invalidSetOption
            else parseSetOpts { acc with expireMs := some (secs.toNat * 1000 % 2 ^ 64) } rest2
      else if tok = ascii "PX" then
        match rest with
        | [] => .error .invalidArgument
        | q :: rest2 =>
          match frameAsInt q with
          | .error e => .error e
          | .ok ms =>
            if ms ≤ 0 then .error .invalidSetOption
            else parseSetOpts { acc with expireMs := some ms.toNat } rest2
      else if tok = ascii "NX" then parseSetOpts { acc with condition := some .nx } rest
      else if tok = ascii "XX" then parseSetOpts { acc with condition := some .xx } rest
      else .error .invalidSetOption

/-- `parse_set` (command.rs): key, value, then the option loop. -/
def parseSet (args : List FrameV) : Except CommandError CommandV :=
  match args with
  | [] => .error .invalidArgument
  | pk :: rest =>
    match frameAsString pk with
    | .error e => .error e
    | .ok key =>
      match rest with
      | [] => .error .invalidArgument
      | pv :: rest2 =>
        match frameAsBytes pv with
        | .error e => .error e
        | .ok value =>
          match parseSetOpts ⟨none, none⟩ rest2 with
          | .error e => .error e
          | .ok options => .ok (.set key value options)

/-- `Command::from_frame` (command.rs). The outer frame must be an array; the
first element is the command name, upper-cased and matched against the
dispatch table; an unmatched name decodes to `Unknown(name)`. Note that the
table here mirrors the source exactly: it has no DBSIZE arm. -/
def fromFrame (f : FrameV) : Except CommandError CommandV :=
  match f with
  | .array parts =>
    match parts with
    | [] => .error .invalidArgument
    | p0 :: args =>
      match frameAsString p0 with
      | .error e => .error e
      | .ok name0 =>
        let name := asciiUpper name0
        if name = ascii "PING" then
          match args with
          | [] => .ok (.ping none)
          | m :: rest =>
            match frameAsBytes m with
            | .error e => .error e
            | .ok b => if rest.isEmpty then .ok (.ping (some b)) else .error .invalidArgument
        else if name = ascii "ECHO" then
          match args with
          | [] => .error .invalidArgument
          | m :: rest =>
            match frameAsBytes m with
            | .error e => .error e
            | .ok b => if rest.isEmpty then .ok (.echo b) else .error .invalidArgument
        else if name = ascii "GET" then
          match args with
          | [] => .error .invalidArgument
          | m :: rest =>
            match frameAsString m with
            | .error e => .error e
            | .ok k => if rest.isEmpty then .ok (.get k) else .error .invalidArgument
        else if name = ascii "SET" then parseSet args
        else if name = ascii "DEL" then
          if args.isEmpty then .error (.wrongArity (ascii "DEL"))
          else
            match collectStrings args with
            | .ok keys => .ok (.del keys)
            | .error e => .error e
        else if name = ascii "EXISTS" then
          if args.isEmpty then .error (.wrongArity (ascii "EXISTS"))
          else
            match collectStrings args with
            | .ok keys => .ok (.existsCmd keys)
            | .error e => .error e
        else if name = ascii "INCR" then
          match args with
          | [] => .error .invalidArgument
          | m :: rest =>
            match frameAsString m with
            | .error e => .error e
            | .ok k => if rest.isEmpty then .ok (.incr k) else .error .invalidArgument
        else if name = ascii "DECR" then
          match args with
          | [] => .error .invalidArgument
          | m :: rest =>
            match frameAsString m with
            | .error e => .error e
            | .ok k => if rest.isEmpty then .ok (.decr k) else .error .invalidArgument
        else if name = ascii "LPUSH" then
          match args with
          | [] => .error .invalidArgument
          | m :: rest =>
            match frameAsString m with
            | .error e => .error e
            | .ok k =>
              if rest.isEmpty then .error (.wrongArity (ascii "LPUSH"))
              else
                match collectBytes rest with
                | .ok vs => .ok (.lpush k vs)
                | .error e => .error e
        else if name = ascii "RPUSH" then
          match args with
          | [] => .error .invalidArgument
          | m :: rest =>
            match frameAsString m with
            | .error e => .error e
            | .ok k =>
              if rest.isEmpty then .error (.wrongArity (ascii "RPUSH"))
              else
                match collectBytes rest with
                | .ok vs => .ok (.rpush k vs)
                | .error e => .error e
        else if name = ascii "LPOP" then
          match args with
          | [] => .error .invalidArgument
          | m :: rest =>
            match frameAsString m with
            | .error e => .error e
            | .ok k =>
              match rest with
              | [] => .ok (.lpop k none)
              | q :: rest2 =>
                match frameAsInt q with
                | .error e => .error e
                | .ok n =>
                  if rest2.isEmpty then .ok (.lpop k (some (usizeOfInt n)))
                  else .error .invalidArgument
        else if name = ascii "RPOP" then
          match args with
          | [] => .error .invalidArgument
          | m :: rest =>
            match frameAsString m with
            | .error e => .error e
            | .ok k =>
              match rest with
              | [] => .ok (.rpop k none)
              | q :: rest2 =>
                match frameAsInt q with
                | .error e => .error e
                | .ok n =>
                  if rest2.isEmpty then .ok (.rpop k (some (usizeOfInt n)))
                  else .error .invalidArgument
        else if name = ascii "LRANGE" then
          match args with
          | [] => .error .invalidArgument
          | m :: rest =>
            match frameAsString m with
            | .error e => .error e
            | .ok k =>
              match rest with
              | [] => .error .invalidArgument
              | q1 :: rest2 =>
                match frameAsInt q1 with
                | .error e => .error e
                | .ok a =>
                  match rest2 with
                  | [] => .error .invalidArgument
                  | q2 :: rest3 =>
                    match frameAsInt q2 with
                    | .error e => .error e
                    | .ok b =>
                      if rest3.isEmpty then .ok (.lrange k a b)
                      else .error .invalidArgument
        else if name = ascii "SUBSCRIBE" then
          if args.isEmpty then .error (.wrongArity (ascii "SUBSCRIBE"))
          else
            match collectStrings args with
            | .ok cs => .ok (.subscribe cs)
            | .error e => .error e
        else if name = ascii "UNSUBSCRIBE" then
          match collectStrings args with
          | .ok cs => .ok (.unsubscribe cs)
          | .error e => .error e
        else if name = ascii "PUBLISH" then
          match args with
          | [] => .error .invalidArgument
          | m :: rest =>
            match frameAsString m with
            | .error e => .error e
            | .ok ch =>
              match rest with
              | [] => .error .invalidArgument
              | q :: rest2 =>
                match frameAsBytes q with
                | .error e => .error e
                | .ok msg =>
                  if rest2.isEmpty then .ok (.publish ch msg)
                  else .error .invalidArgument
        else .ok (.unknown name)
  | _ => .error .invalidArgument

/-- `Command::to_frame` (command.rs): canonical array-of-bulk encoding;
SET always re-emits expirations as `PX <ms>` and then the NX/XX token. -/
def toFrame : CommandV → FrameV
  | .ping none => .array [.bulk (ascii "PING")]
  | .ping (some msg) => .array [.bulk (ascii "PING"), .bulk msg]
  | .echo msg => .array [.bulk (ascii "ECHO"), .bulk msg]
  | .get key => .array [.bulk (ascii "GET"), .bulk key]
  | .set key value options =>
    .array
      ([.bulk (ascii "SET"), .bulk key, .bulk value] ++
        (match options.expireMs with
         | some ms => [.bulk (ascii "PX"), .bulk (natToStr ms)]
         | none => []) ++
        (match options.condition with
         | some .nx => [.bulk (ascii "NX")]
         | some .xx => [.bulk (ascii "XX")]
         | none => []))
  | .del keys => .array (.bulk (ascii "DEL") :: keys.map .bulk)
  | .existsCmd keys => .array (.bulk (ascii "EXISTS") :: keys.map .bulk)
  | .incr key => .array [.bulk (ascii "INCR"), .bulk key]
  | .decr key => .array [.bulk (ascii "DECR"), .bulk key]
  | .lpush key values => .array (.bulk (ascii "LPUSH") :: .bulk key :: values.map .bulk)
  | .rpush key values => .array (.bulk (ascii "RPUSH") :: .bulk key :: values.map .bulk)
  | .lpop key none => .array [.bulk (ascii "LPOP"), .bulk key]
  | .lpop key (some c) => .array [.bulk (ascii "LPOP"), .bulk key, .bulk (natToStr c)]
  | .rpop key none => .array [.bulk (ascii "RPOP"), .bulk key]
  | .rpop key (some c) => .array [.bulk (ascii "RPOP"), .bulk key, .bulk (natToStr c)]
  | .lrange key a b =>
    .array [.bulk (ascii "LRANGE"), .bulk key, .bulk (intToStr a), .bulk (intToStr b)]
  | .subscribe cs => .array (.bulk (ascii "SUBSCRIBE") :: cs.map .bulk)
  | .unsubscribe cs => .array (.bulk (ascii "UNSUBSCRIBE") :: cs.map .bulk)
  | .publish ch msg => .array [.bulk (ascii "PUBLISH"), .bulk ch, .bulk msg]
  | .unknown name => .array [.bulk name]

/-- `apply_command` (aof.rs): replay write-path — write commands go through
the same `Db` operations as live traffic, results discarded; everything else
is ignored. -/
def applyCommand (cmd : CommandV) (now : Nat) (s : Store) : Store :=
  match cmd with
  | .set k v opts => (Db.set s now k v opts).2
  | .del keys => (Db.del s keys).2
  | .incr k => (Db.incr s now k).2
  | .decr k => (Db.decr s now k).2
  | .lpush k vs => (Db.lpush s now k vs).2
  | .rpush k vs => (Db.rpush s now k vs).2
  | .lpop k c => (Db.lpop s now k c).2
  | .rpop k c => (Db.rpop s now k c).2
  | _ => s

/-- Keyspace effect of `execute_command` (handler.rs) for a command executed
directly against the store (response frames are not modelled here; read-only
and pub/sub commands leave the keyspace untouched apart from `Db::get` /
`Db::lrange` style lazy expiry, which cannot fire on the deadline-free runs
the replay-equivalence claim quantifies over). -/
def execCommandStore (cmd : CommandV) (now : Nat) (s : Store) : Store :=
  match cmd with
  | .set k v opts => (Db.set s now k v opts).2
  | .del keys => (Db.del s keys).2
  | .incr k => (Db.incr s now k).2
  | .decr k => (Db.decr s now k).2
  | .lpush k vs => (Db.lpush s now k vs).2
  | .rpush k vs => (Db.rpush s now k vs).2
  | .lpop k c => (Db.lpop s now k c).2
  | .rpop k c => (Db.rpop s now k c).2
  | .lrange k a b => (Db.lrange s now k a b).2
  | _ => s

/-- Direct execution of a command sequence against a store, each command at
its own instant (instants beyond the list default to 0). -/
def runCommands : List CommandV → List Nat → Store → Store
  | [], _, s => s
  | c :: cs, nows, s => runCommands cs nows.tail (execCommandStore c (nows.headD 0) s)

/-- The bytes of the AOF produced for a command sequence: each command's
canonical frame (`to_frame`), RESP2-encoded, concatenated (aof.rs writer). -/
def aofBytes (cmds : List CommandV) : Buf :=
  (cmds.map fun c => encodeF (toFrame c)).flatten

/-- The `replay_aof` loop (aof.rs) with explicit fuel: while bytes remain,
`check` the next frame, rewind, `parse` it, decode with `from_frame`, apply
decodable commands and skip undecodable ones; stop on any check/parse
failure. Each processed frame consumes one instant from `nows`. -/
def replayAofFuel : Nat → Buf → Nat → List Nat → Store → Store
  | 0, _, _, _, s => s
  | fuel + 1, data, pos, nows, s =>
    if data.length ≤ pos then s
    else
      match frameCheck ⟨data, pos⟩ with
      | (.ok _, _) =>
        match frameParse ⟨data, pos⟩ with
        | (.ok f, c2) =>
          match fromFrame f with
          | .ok cmd =>
            replayAofFuel fuel data c2.pos nows.tail (applyCommand cmd (nows.headD 0) s)
          | .error _ => replayAofFuel fuel data c2.pos nows.tail s
        | (.error _, _) => s
      | (.error _, _) => s

/-- `replay_aof` entry point on a fresh cursor over the whole file. -/
def replayRun (data : Buf) (nows : List Nat) : Store :=
  replayAofFuel (data.length + 1) data 0 nows []

/-- Specification-side count for DEL: a key contributes 1 exactly when it is
physically present (whatever its expiry state) at the moment it is processed,
and each processed key is removed. -/
def delSpecCount : Store → List Buf → Nat
  | _, [] => 0
  | s, k :: ks =>
    (if (storeGet s k).isSome then 1 else 0) + delSpecCount (storeRemove s k) ks

/-- A key as it can occur in live traffic: valid UTF-8 (it was produced from a
Rust `String`) and within the frame limit the codec enforces on the connection
that delivered it. -/
def goodKey (k : Buf) : Bool := validUtf8 k && decide (k.length ≤ MAX_FRAME_SIZE)

/-- A value payload within the frame limit. -/
def goodVal (v : Buf) : Bool := decide (v.length ≤ MAX_FRAME_SIZE)

/-- Write commands whose canonical encoding decodes back to the same command
(non-empty key/value lists where the decoder demands them, pop counts below
2^63 so the textual count re-parses as `i64`) and which carry no expiration.
List-length bounds mirror Rust's `Vec`/`usize` invariants. -/
def goodWrite : CommandV → Bool
  | .set k v opts =>
    goodKey k && goodVal v && opts.expireMs.isNone
  | .del keys =>
    !keys.isEmpty && keys.all goodKey && decide (keys.length + 1 < 2 ^ 63)
  | .incr k => goodKey k
  | .decr k => goodKey k
  | .lpush k vs =>
    goodKey k && !vs.isEmpty && vs.all goodVal && decide (vs.length + 2 < 2 ^ 63)
  | .rpush k vs =>
    goodKey k && !vs.isEmpty && vs.all goodVal && decide (vs.length + 2 < 2 ^ 63)
  | .lpop k c =>
    goodKey k && (match c with | none => true | some n => decide (n < 2 ^ 63))
  | .rpop k c =>
    goodKey k && (match c with | none => true | some n => decide (n < 2 ^ 63))
  | _ => false

/-- A keyspace in which no entry carries a deadline (the invariant maintained
by runs that never use EX/PX). -/
def noDeadline (s : Store) : Bool := s.all fun kv => kv.2.expiresAt.isNone

/-! ## Basic buffer lemmas -/

theorem drop_pre (pre l : Buf) (k : Nat) :
    (pre ++ l).drop (pre.length + k) = l.drop k := by
  rw [List.drop_append]

theorem getU8_cons (pre l : Buf) (b : Nat) :
    getU8 ⟨pre ++ (b :: l), pre.length⟩ = (.ok b, ⟨pre ++ (b :: l), pre.length + 1⟩) := by
  simp [getU8, List.drop_left]

theorem getU8_end (pre : Buf) :
    getU8 ⟨pre, pre.length⟩ = (.error .incomplete, ⟨pre, pre.length⟩) := by
  simp [getU8]

theorem crlfAt_cons_ne (b : Nat) (rest : Buf) (hb : b ≠ 13) :
    crlfAt (b :: rest) = (crlfAt rest).map (· + 1) := by
  simp [crlfAt, hb]

theorem crlfAt_cons (b : Nat) (rest : Buf) :
    crlfAt (b :: rest) =
      if b = 13 ∧ rest.headD 0 = 10 then some 0
      else (crlfAt rest).map (· + 1) := rfl

theorem crlfAt_noCRLF_append (s t : Buf) (hs : noCRLF s = true) :
    crlfAt (s ++ 13 :: 10 :: t) = some s.length := by
  induction s with
  | nil => simp [crlfAt]
  | cons b s' ih =>
    simp only [noCRLF, List.all_cons, Bool.and_eq_true, decide_eq_true_eq] at hs
    rw [List.cons_append, crlfAt_cons_ne b _ hs.1.1, ih hs.2]
    simp

theorem crlfAt_noCRLF_cr (s : Buf) (hs : noCRLF s = true) :
    crlfAt (s ++ [13]) = none := by
  induction s with
  | nil => simp [crlfAt]
  | cons b s' ih =>
    simp only [noCRLF, List.all_cons, Bool.and_eq_true, decide_eq_true_eq] at hs
    rw [List.cons_append, crlfAt_cons_ne b _ hs.1.1, ih hs.2]
    rfl

theorem headD_take_pos (rest : Buf) (m : Nat) (hm : 0 < m) :
    (rest.take m).headD 0 = rest.headD 0 := by
  cases rest with
  | nil => simp
  | cons r rs =>
    match m, hm with
    | m + 1, _ => simp

theorem crlfAt_take_of_none (l : Buf) (m : Nat) (hl : crlfAt l = none) :
    crlfAt (l.take m) = none := by
  induction l generalizing m with
  | nil => simp [crlfAt]
  | cons b rest ih =>
    rw [crlfAt_cons] at hl
    by_cases hc : b = 13 ∧ rest.headD 0 = 10
    · rw [if_pos hc] at hl
      exact absurd hl (by simp)
    · rw [if_neg hc] at hl
      have hrest : crlfAt rest = none := by
        cases h : crlfAt rest with
        | none => rfl
        | some k => rw [h] at hl; simp at hl
      cases m with
      | zero => simp [crlfAt]
      | succ m =>
        rw [List.take_succ_cons, crlfAt_cons, if_neg, ih m hrest]
        · rfl
        · intro hcc
          apply hc
          refine ⟨hcc.1, ?_⟩
          cases m with
          | zero =>
            have h0 := hcc.2
            simp at h0
          | succ m2 =>
            rw [headD_take_pos rest (m2 + 1) (Nat.succ_pos _)] at hcc
            exact hcc.2

theorem crlfAt_line_take (s t : Buf) (m : Nat) (hs : noCRLF s = true)
    (hm : m ≤ s.length + 1) :
    crlfAt ((s ++ 13 :: 10 :: t).take m) = none := by
  have h1 : (s ++ 13 :: 10 :: t).take m = ((s ++ [13]) ++ 10 :: t).take m := by
    simp
  rw [h1, List.take_append_of_le_length (by simp; omega)]
  exact crlfAt_take_of_none _ m (crlfAt_noCRLF_cr s hs)

/-! ## `get_line` lemmas -/

theorem getLine_ok (pre s t : Buf) (hs : noCRLF s = true) :
    getLine ⟨pre ++ (s ++ 13 :: 10 :: t), pre.length⟩ =
      (.ok s, ⟨pre ++ (s ++ 13 :: 10 :: t), pre.length + s.length + 2⟩) := by
  unfold getLine
  rw [List.drop_left, crlfAt_noCRLF_append s t hs]
  simp [List.take_left]

theorem getLine_incomplete (pre x : Buf) (hx : crlfAt x = none) :
    getLine ⟨pre ++ x, pre.length⟩ = (.error .incomplete, ⟨pre ++ x, pre.length⟩) := by
  unfold getLine
  rw [List.drop_left, hx]

/-! ## Decimal representation lemmas -/

theorem natDigitsRev_digits (n : Nat) : ∀ b ∈ natDigitsRev n, 48 ≤ b ∧ b ≤ 57 := by
  induction n using Nat.strong_induction_on with
  | _ n ih =>
    rw [natDigitsRev]
    by_cases h : n < 10
    · intro b hb
      simp [h] at hb
      omega
    · intro b hb
      simp only [h, dite_false] at hb
      rcases List.mem_cons.mp hb with h1 | h1
      · have : n % 10 < 10 := Nat.mod_lt _ (by omega)
        omega
      · exact ih (n / 10) (by omega) b h1

theorem natToStr_digits (n : Nat) : ∀ b ∈ natToStr n, 48 ≤ b ∧ b ≤ 57 := by
  intro b hb
  exact natDigitsRev_digits n b (List.mem_reverse.mp hb)

theorem natToStr_ne_nil (n : Nat) : natToStr n ≠ [] := by
  unfold natToStr
  rw [natDigitsRev]
  by_cases h : n < 10 <;> simp [h]

theorem natToStr_small (n : Nat) (h : n < 10) : natToStr n = [48 + n] := by
  unfold natToStr
  rw [natDigitsRev]
  simp [h]

theorem natToStr_step (n : Nat) (h : 10 ≤ n) :
    natToStr n = natToStr (n / 10) ++ [48 + n % 10] := by
  unfold natToStr
  conv => lhs; rw [natDigitsRev]
  have h2 : ¬ n < 10 := by omega
  simp [h2]

theorem digitsValAux_nil (acc : Nat) : digitsValAux acc [] = some acc := rfl

theorem digitsValAux_cons (acc b : Nat) (rest : Buf) :
    digitsValAux acc (b :: rest) =
      if 48 ≤ b ∧ b ≤ 57 then digitsValAux (acc * 10 + (b - 48)) rest else none := rfl

theorem digitsValAux_append (acc : Nat) (l1 l2 : Buf) :
    digitsValAux acc (l1 ++ l2) =
      match digitsValAux acc l1 with
      | some a => digitsValAux a l2
      | none => none := by
  induction l1 generalizing acc with
  | nil => simp [digitsValAux]
  | cons b rest ih =>
    rw [List.cons_append, digitsValAux_cons, digitsValAux_cons]
    by_cases hb : 48 ≤ b ∧ b ≤ 57
    · rw [if_pos hb, if_pos hb, ih]
    · rw [if_neg hb, if_neg hb]

theorem digitsValAux_natToStr (n : Nat) :
    ∀ acc, digitsValAux acc (natToStr n) = some (acc * 10 ^ (natToStr n).length + n) := by
  induction n using Nat.strong_induction_on with
  | _ n ih =>
    intro acc
    by_cases h : n < 10
    · rw [natToStr_small n h]
      simp [digitsValAux]
      omega
    · rw [natToStr_step n (by omega), digitsValAux_append]
      rw [ih (n / 10) (Nat.div_lt_self (by omega) (by omega)) acc]
      have hd : 48 ≤ 48 + n % 10 ∧ 48 + n % 10 ≤ 57 := by
        have : n % 10 < 10 := Nat.mod_lt _ (by omega)
        omega
      simp only [digitsValAux, if_pos hd]
      congr 1
      have hlen : (natToStr (n / 10) ++ [48 + n % 10]).length =
          (natToStr (n / 10)).length + 1 := by simp
      rw [hlen, pow_succ]
      have hmod : 48 + n % 10 - 48 = n % 10 := by omega
      rw [hmod]
      have := Nat.div_add_mod n 10
      ring_nf
      omega

theorem digitsVal_natToStr (n : Nat) : digitsVal (natToStr n) = some n := by
  unfold digitsVal
  have hne := natToStr_ne_nil n
  match hh : natToStr n with
  | [] => exact absurd hh hne
  | b :: rest =>
    rw [← hh]
    have := digitsValAux_natToStr n 0
    rw [this]
    simp

theorem rustParseI64_cons (b : Nat) (rest : Buf) :
    rustParseI64 (b :: rest) =
      if b = 43 then
        (digitsVal rest).bind fun v =>
          if (v : Int) ≤ 2 ^ 63 - 1 then some (v : Int) else none
      else if b = 45 then
        (digitsVal rest).bind fun v =>
          if (v : Int) ≤ 2 ^ 63 then some (-(v : Int)) else none
      else
        (digitsVal (b :: rest)).bind fun v =>
          if (v : Int) ≤ 2 ^ 63 - 1 then some (v : Int) else none := rfl

theorem rustParseI64_natToStr (n : Nat) (h : (n : Int) ≤ 2 ^ 63 - 1) :
    rustParseI64 (natToStr n) = some (n : Int) := by
  have hne := natToStr_ne_nil n
  match hh : natToStr n with
  | [] => exact absurd hh hne
  | b :: rest =>
    have hb : 48 ≤ b ∧ b ≤ 57 := by
      apply natToStr_digits n
      rw [hh]; exact List.mem_cons_self _ _
    rw [rustParseI64_cons, if_neg (by omega : ¬ b = 43), if_neg (by omega : ¬ b = 45),
      ← hh, digitsVal_natToStr n]
    simp only [Option.some_bind, if_pos h]

theorem rustParseI64_intToStr (i : Int) (h1 : -(2 ^ 63) ≤ i) (h2 : i ≤ 2 ^ 63 - 1) :
    rustParseI64 (intToStr i) = some i := by
  unfold intToStr
  by_cases hneg : i < 0
  · rw [if_pos hneg, rustParseI64_cons, if_neg (by omega : ¬ (45 : Nat) = 43),
      if_pos rfl, digitsVal_natToStr (-i).toNat]
    have htn : (((-i).toNat : Nat) : Int) = -i := Int.toNat_of_nonneg (by omega)
    have hle : (((-i).toNat : Nat) : Int) ≤ 2 ^ 63 := by rw [htn]; omega
    simp only [Option.some_bind, if_pos hle]
    rw [htn]
    simp
  · rw [if_neg hneg]
    have : (i.toNat : Int) = i := Int.toNat_of_nonneg (by omega)
    rw [rustParseI64_natToStr i.toNat (by omega)]
    congr 1

theorem noCRLF_natToStr (n : Nat) : noCRLF (natToStr n) = true := by
  unfold noCRLF
  rw [List.all_eq_true]
  intro b hb
  have := natToStr_digits n b hb
  simp
  omega

theorem noCRLF_intToStr (i : Int) : noCRLF (intToStr i) = true := by
  unfold intToStr
  by_cases h : i < 0
  · rw [if_pos h]
    unfold noCRLF
    rw [List.all_cons]
    have := noCRLF_natToStr (-i).toNat
    unfold noCRLF at this
    rw [this]
    simp
  · rw [if_neg h]; exact noCRLF_natToStr _

theorem validUtf8_ascii (l : Buf) (h : ∀ b ∈ l, b < 128) : validUtf8 l = true := by
  induction l with
  | nil => rfl
  | cons b rest ih =>
    unfold validUtf8
    rw [if_pos (by exact h b (List.mem_cons_self _ _))]
    exact ih fun x hx => h x (List.mem_cons_of_mem _ hx)

theorem validUtf8_natToStr (n : Nat) : validUtf8 (natToStr n) = true := by
  apply validUtf8_ascii
  intro b hb
  have := natToStr_digits n b hb
  omega

theorem validUtf8_intToStr (i : Int) : validUtf8 (intToStr i) = true := by
  unfold intToStr
  by_cases h : i < 0
  · rw [if_pos h]
    apply validUtf8_ascii
    intro b hb
    rcases List.mem_cons.mp hb with h1 | h1
    · omega
    · have := natToStr_digits _ b h1
      omega
  · rw [if_neg h]; exact validUtf8_natToStr _

/-! ## Drop-characterized step lemmas -/

theorem drop_shift (c : Cur) (k : Nat) (x : Buf) (h : c.buf.drop c.pos = x) :
    c.buf.drop (c.pos + k) = x.drop k := by
  rw [← List.drop_drop, h]

theorem getU8_drop_cons (c : Cur) (b : Nat) (l : Buf) (h : c.buf.drop c.pos = b :: l) :
    getU8 c = (.ok b, ⟨c.buf, c.pos + 1⟩) := by
  unfold getU8
  rw [h]

theorem getU8_drop_nil (c : Cur) (h : c.buf.drop c.pos = []) :
    getU8 c = (.error .incomplete, c) := by
  unfold getU8
  rw [h]

theorem getLine_drop_ok (c : Cur) (s t : Buf) (h : c.buf.drop c.pos = s ++ 13 :: 10 :: t)
    (hs : noCRLF s = true) :
    getLine c = (.ok s, ⟨c.buf, c.pos + s.length + 2⟩) := by
  unfold getLine
  rw [h, crlfAt_noCRLF_append s t hs]
  simp [List.take_left]

theorem getLine_drop_none (c : Cur) (h : crlfAt (c.buf.drop c.pos) = none) :
    getLine c = (.error .incomplete, c) := by
  unfold getLine
  rw [h]

theorem getDecimal_drop_ok (c : Cur) (line t : Buf) (v : Int)
    (h : c.buf.drop c.pos = line ++ 13 :: 10 :: t)
    (hn : noCRLF line = true) (hu : validUtf8 line = true)
    (hp : rustParseI64 line = some v) :
    getDecimal c = (.ok v, ⟨c.buf, c.pos + line.length + 2⟩) := by
  unfold getDecimal
  rw [getLine_drop_ok c line t h hn]
  simp [hu, hp]

theorem getDecimal_drop_none (c : Cur) (h : crlfAt (c.buf.drop c.pos) = none) :
    getDecimal c = (.error .incomplete, c) := by
  unfold getDecimal
  rw [getLine_drop_none c h]

theorem remaining_eq (c : Cur) (x : Buf) (h : c.buf.drop c.pos = x) :
    c.buf.length - c.pos = x.length := by
  rw [← List.length_drop, h]

theorem skip_drop_ok (c : Cur) (x : Buf) (n : Nat) (h : c.buf.drop c.pos = x)
    (hn : n ≤ x.length) :
    skip n c = (.ok (), ⟨c.buf, c.pos + n⟩) := by
  unfold skip
  rw [if_neg]
  rw [remaining_eq c x h]
  omega

theorem skip_drop_incomplete (c : Cur) (x : Buf) (n : Nat) (h : c.buf.drop c.pos = x)
    (hn : x.length < n) :
    skip n c = (.error .incomplete, c) := by
  unfold skip
  rw [if_pos]
  rw [remaining_eq c x h]
  omega

/-! ## Mutual induction over frames -/

theorem frameMutInd (P : FrameV → Prop) (Q : List FrameV → Prop)
    (h1 : ∀ s, P (.simple s)) (h2 : ∀ s, P (.error s)) (h3 : ∀ n, P (.integer n))
    (h4 : ∀ d, P (.bulk d)) (h5 : P .null)
    (h6 : ∀ l, Q l → P (.array l))
    (h7 : Q []) (h8 : ∀ f fs, P f → Q fs → Q (f :: fs)) :
    (∀ f, P f) ∧ (∀ l, Q l) := by
  have hF : ∀ f, P f := fun f => @FrameV.rec P Q h1 h2 h3 h4 h5 h6 h7 h8 f
  refine ⟨hF, ?_⟩
  intro l
  induction l with
  | nil => exact h7
  | cons f fs ih => exact h8 f fs (hF f) ih

theorem natToStr_length_pos (n : Nat) : 0 < (natToStr n).length :=
  List.length_pos.mpr (natToStr_ne_nil n)

theorem depth_le_encode :
    (∀ f, frameDepth f ≤ (encodeF f).length) ∧
      (∀ l, frameDepthList l ≤ (encodeFs l).length) := by
  apply frameMutInd
  · intro s; simp [frameDepth, encodeF]
  · intro s; simp [frameDepth, encodeF]
  · intro n; simp [frameDepth, encodeF]
  · intro d; simp [frameDepth, encodeF]
  · simp [frameDepth, encodeF]
  · intro l hq
    have h1 := natToStr_length_pos l.length
    simp only [frameDepth, encodeF, List.length_cons, List.length_append]
    omega
  · simp [frameDepthList, encodeFs]
  · intro f fs hf hfs
    simp only [frameDepthList, encodeFs, List.length_append]
    exact Nat.max_le.mpr ⟨by omega, by omega⟩

/-! ## `Frame::check` on complete encodings -/

theorem frameDepth_pos (f : FrameV) : 1 ≤ frameDepth f := by
  cases f <;> simp [frameDepth]

theorem encodeF_len_simple (s : Buf) : (encodeF (.simple s)).length = s.length + 3 := by
  simp only [encodeF, List.length_cons, List.length_append, List.length_nil]
  try omega

theorem encodeF_len_error (s : Buf) : (encodeF (.error s)).length = s.length + 3 := by
  simp only [encodeF, List.length_cons, List.length_append, List.length_nil]
  try omega

theorem encodeF_len_integer (n : Int) :
    (encodeF (.integer n)).length = (intToStr n).length + 3 := by
  simp only [encodeF, List.length_cons, List.length_append, List.length_nil]
  try omega

theorem encodeF_len_bulk (d : Buf) :
    (encodeF (.bulk d)).length = (natToStr d.length).length + d.length + 5 := by
  simp only [encodeF, List.length_cons, List.length_append, List.length_nil]
  omega

theorem encodeF_len_null : (encodeF .null).length = 5 := rfl

theorem encodeF_len_array (l : List FrameV) :
    (encodeF (.array l)).length = (natToStr l.length).length + (encodeFs l).length + 3 := by
  simp only [encodeF, List.length_cons, List.length_append, List.length_nil]
  omega

theorem checkN_encodeFs (fuel : Nat)
    (IH : ∀ f c rest, wfF f = true → withinLimitF f = true → frameDepth f ≤ fuel →
      c.buf.drop c.pos = encodeF f ++ rest →
      checkF fuel c = (.ok (), ⟨c.buf, c.pos + (encodeF f).length⟩)) :
    ∀ l c rest, wfListF l = true → withinLimitListF l = true →
      frameDepthList l ≤ fuel →
      c.buf.drop c.pos = encodeFs l ++ rest →
      checkN (checkF fuel) l.length c =
        (.ok (), ⟨c.buf, c.pos + (encodeFs l).length⟩) := by
  intro l
  induction l with
  | nil =>
    intro c rest _ _ _ _
    simp [checkN, encodeFs]
  | cons f fs ih =>
    intro c rest hwf hlim hdep hdrop
    simp only [wfListF, Bool.and_eq_true] at hwf
    simp only [withinLimitListF, Bool.and_eq_true] at hlim
    simp only [frameDepthList, Nat.max_le] at hdep
    have hdrop1 : c.buf.drop c.pos = encodeF f ++ (encodeFs fs ++ rest) := by
      rw [hdrop, encodeFs, List.append_assoc]
    have hstep := IH f c (encodeFs fs ++ rest) hwf.1 hlim.1 hdep.1 hdrop1
    show checkN (checkF fuel) (fs.length + 1) c = _
    rw [checkN, hstep]
    dsimp only
    have hdrop2 : (Cur.mk c.buf (c.pos + (encodeF f).length)).buf.drop
        (Cur.mk c.buf (c.pos + (encodeF f).length)).pos = encodeFs fs ++ rest := by
      show c.buf.drop (c.pos + (encodeF f).length) = _
      rw [drop_shift c _ _ hdrop1, List.drop_left]
    rw [ih ⟨c.buf, c.pos + (encodeF f).length⟩ rest hwf.2 hlim.2 hdep.2 hdrop2]
    simp only [Prod.mk.injEq, Cur.mk.injEq, encodeFs, List.length_append, true_and]
    omega

theorem check_encode (fuel : Nat) :
    ∀ f c rest, wfF f = true → withinLimitF f = true → frameDepth f ≤ fuel →
      c.buf.drop c.pos = encodeF f ++ rest →
      checkF fuel c = (.ok (), ⟨c.buf, c.pos + (encodeF f).length⟩) := by
  induction fuel with
  | zero =>
    intro f c rest _ _ hdep _
    exact absurd hdep (by have := frameDepth_pos f; omega)
  | succ fuel ih =>
    intro f c rest hwf hlim hdep hdrop
    cases f with
    | simple s =>
      simp only [wfF, Bool.and_eq_true] at hwf
      have hdrop1 : c.buf.drop c.pos = 43 :: (s ++ 13 :: 10 :: rest) := by
        rw [hdrop]; simp [encodeF]
      have hdrop2 : c.buf.drop (c.pos + 1) = s ++ 13 :: 10 :: rest :=
        drop_shift c 1 _ hdrop1
      unfold checkF
      rw [getU8_drop_cons c 43 _ hdrop1]
      dsimp only
      rw [if_pos (Or.inl rfl)]
      rw [getLine_drop_ok ⟨c.buf, c.pos + 1⟩ s rest hdrop2 hwf.1]
      simp only [Prod.mk.injEq, Cur.mk.injEq, encodeF_len_simple, true_and,
        List.length_cons, List.length_append, List.length_nil]
      omega
    | error s =>
      simp only [wfF, Bool.and_eq_true] at hwf
      have hdrop1 : c.buf.drop c.pos = 45 :: (s ++ 13 :: 10 :: rest) := by
        rw [hdrop]; simp [encodeF]
      have hdrop2 : c.buf.drop (c.pos + 1) = s ++ 13 :: 10 :: rest :=
        drop_shift c 1 _ hdrop1
      unfold checkF
      rw [getU8_drop_cons c 45 _ hdrop1]
      dsimp only
      rw [if_pos (Or.inr rfl)]
      rw [getLine_drop_ok ⟨c.buf, c.pos + 1⟩ s rest hdrop2 hwf.1]
      simp only [Prod.mk.injEq, Cur.mk.injEq, encodeF_len_error, true_and,
        List.length_cons, List.length_append, List.length_nil]
      omega
    | integer n =>
      have hdrop1 : c.buf.drop c.pos = 58 :: (intToStr n ++ 13 :: 10 :: rest) := by
        rw [hdrop]; simp [encodeF]
      have hdrop2 : c.buf.drop (c.pos + 1) = intToStr n ++ 13 :: 10 :: rest :=
        drop_shift c 1 _ hdrop1
      unfold checkF
      rw [getU8_drop_cons c 58 _ hdrop1]
      dsimp only
      rw [if_neg (by omega), if_pos rfl]
      rw [getLine_drop_ok ⟨c.buf, c.pos + 1⟩ (intToStr n) rest hdrop2 (noCRLF_intToStr n)]
      simp only [Prod.mk.injEq, Cur.mk.injEq, encodeF_len_integer, true_and,
        List.length_cons, List.length_append, List.length_nil]
      omega
    | bulk d =>
      simp only [wfF, decide_eq_true_eq] at hwf
      simp only [withinLimitF, decide_eq_true_eq] at hlim
      have hdrop1 : c.buf.drop c.pos =
          36 :: (natToStr d.length ++ 13 :: 10 :: (d ++ 13 :: 10 :: rest)) := by
        rw [hdrop]; simp [encodeF]
      have hdrop2 : c.buf.drop (c.pos + 1) =
          natToStr d.length ++ 13 :: 10 :: (d ++ 13 :: 10 :: rest) :=
        drop_shift c 1 _ hdrop1
      unfold checkF
      rw [getU8_drop_cons c 36 _ hdrop1]
      dsimp only
      rw [if_neg (by omega), if_neg (by omega), if_pos rfl]
      rw [getDecimal_drop_ok ⟨c.buf, c.pos + 1⟩ (natToStr d.length) _ (d.length : Int)
        hdrop2 (noCRLF_natToStr _) (validUtf8_natToStr _)
        (rustParseI64_natToStr d.length (by push_cast; omega))]
      dsimp only
      rw [if_neg (by omega), if_neg (by omega),
        if_neg (by simp only [Int.toNat_natCast]; omega)]
      have hdrop3 : c.buf.drop (c.pos + 1 + (natToStr d.length).length + 2) =
          d ++ 13 :: 10 :: rest := by
        have hk := drop_shift c (1 + (natToStr d.length).length + 2) _ hdrop1
        have hsh : ((36 : Nat) :: (natToStr d.length ++ 13 :: 10 :: (d ++ 13 :: 10 :: rest))).drop
            (1 + (natToStr d.length).length + 2) = d ++ 13 :: 10 :: rest := by
          rw [show (36 : Nat) :: (natToStr d.length ++ 13 :: 10 :: (d ++ 13 :: 10 :: rest)) =
            (36 :: (natToStr d.length ++ [13, 10])) ++ (d ++ 13 :: 10 :: rest) by simp]
          rw [show 1 + (natToStr d.length).length + 2 =
            ((36 : Nat) :: (natToStr d.length ++ [13, 10])).length by
              simp only [List.length_cons, List.length_append, List.length_nil]; omega]
          exact List.drop_left _ _
        rw [show c.pos + 1 + (natToStr d.length).length + 2 =
          c.pos + (1 + (natToStr d.length).length + 2) by omega, hk, hsh]
      rw [skip_drop_ok ⟨c.buf, c.pos + 1 + (natToStr d.length).length + 2⟩
        (d ++ 13 :: 10 :: rest) (((d.length : Nat) : Int).toNat + 2) hdrop3
        (by simp only [Int.toNat_natCast, List.length_append, List.length_cons]; omega)]
      simp only [Prod.mk.injEq, Cur.mk.injEq, encodeF_len_bulk, Int.toNat_natCast,
        true_and, List.length_cons, List.length_append, List.length_nil]
      omega
    | null =>
      have hdrop1 : c.buf.drop c.pos = 36 :: ([45, 49] ++ 13 :: 10 :: rest) := by
        rw [hdrop]; simp [encodeF]
      have hdrop2 : c.buf.drop (c.pos + 1) = [45, 49] ++ 13 :: 10 :: rest :=
        drop_shift c 1 _ hdrop1
      unfold checkF
      rw [getU8_drop_cons c 36 _ hdrop1]
      dsimp only
      rw [if_neg (by omega), if_neg (by omega), if_pos rfl]
      rw [getDecimal_drop_ok ⟨c.buf, c.pos + 1⟩ [45, 49] _ (-1 : Int)
        hdrop2 (by decide) (by decide) (by decide)]
      dsimp only
      rw [if_pos rfl]
      simp only [Prod.mk.injEq, Cur.mk.injEq, encodeF_len_null, true_and,
        List.length_cons, List.length_append, List.length_nil]
      try omega
    | array l =>
      simp only [wfF, Bool.and_eq_true, decide_eq_true_eq] at hwf
      simp only [withinLimitF] at hlim
      have hdep2 : frameDepthList l ≤ fuel := by
        simp only [frameDepth] at hdep
        omega
      have hdrop1 : c.buf.drop c.pos =
          42 :: (natToStr l.length ++ 13 :: 10 :: (encodeFs l ++ rest)) := by
        rw [hdrop]; simp [encodeF]
      have hdrop2 : c.buf.drop (c.pos + 1) =
          natToStr l.length ++ 13 :: 10 :: (encodeFs l ++ rest) :=
        drop_shift c 1 _ hdrop1
      unfold checkF
      rw [getU8_drop_cons c 42 _ hdrop1]
      dsimp only
      rw [if_neg (by omega), if_neg (by omega), if_neg (by omega), if_pos rfl]
      rw [getDecimal_drop_ok ⟨c.buf, c.pos + 1⟩ (natToStr l.length) _ (l.length : Int)
        hdrop2 (noCRLF_natToStr _) (validUtf8_natToStr _)
        (rustParseI64_natToStr l.length (by push_cast; omega))]
      dsimp only
      rw [if_neg (by omega), if_neg (by omega)]
      have hdrop3 : c.buf.drop (c.pos + 1 + (natToStr l.length).length + 2) =
          encodeFs l ++ rest := by
        have hk := drop_shift c (1 + (natToStr l.length).length + 2) _ hdrop1
        have hsh : ((42 : Nat) :: (natToStr l.length ++ 13 :: 10 :: (encodeFs l ++ rest))).drop
            (1 + (natToStr l.length).length + 2) = encodeFs l ++ rest := by
          rw [show (42 : Nat) :: (natToStr l.length ++ 13 :: 10 :: (encodeFs l ++ rest)) =
            (42 :: (natToStr l.length ++ [13, 10])) ++ (encodeFs l ++ rest) by simp]
          rw [show 1 + (natToStr l.length).length + 2 =
            ((42 : Nat) :: (natToStr l.length ++ [13, 10])).length by
              simp only [List.length_cons, List.length_append, List.length_nil]; omega]
          exact List.drop_left _ _
        rw [show c.pos + 1 + (natToStr l.length).length + 2 =
          c.pos + (1 + (natToStr l.length).length + 2) by omega, hk, hsh]
      have hloop := checkN_encodeFs fuel ih l
        ⟨c.buf, c.pos + 1 + (natToStr l.length).length + 2⟩ rest hwf.2 hlim hdep2 hdrop3
      rw [show (((l.length : Nat) : Int)).toNat = l.length by simp, hloop]
      simp only [Prod.mk.injEq, Cur.mk.injEq, encodeF_len_array, true_and,
        List.length_cons, List.length_append, List.length_nil]
      omega

/-! ## `Frame::parse` on complete encodings (round trip) -/

theorem usizeOfInt_ofNat (n : Nat) (h : n < 2 ^ 64) : usizeOfInt (n : Int) = n := by
  unfold usizeOfInt
  rw [Int.emod_eq_of_lt (by omega) (by exact_mod_cast h)]
  simp

theorem parseN_encodeFs (fuel : Nat)
    (IH : ∀ f c rest, wfF f = true → frameDepth f ≤ fuel →
      c.buf.drop c.pos = encodeF f ++ rest →
      parseF fuel c = (.ok f, ⟨c.buf, c.pos + (encodeF f).length⟩)) :
    ∀ l c rest, wfListF l = true → frameDepthList l ≤ fuel →
      c.buf.drop c.pos = encodeFs l ++ rest →
      parseN (parseF fuel) l.length c =
        (.ok l, ⟨c.buf, c.pos + (encodeFs l).length⟩) := by
  intro l
  induction l with
  | nil =>
    intro c rest _ _ _
    simp [parseN, encodeFs]
  | cons f fs ih =>
    intro c rest hwf hdep hdrop
    simp only [wfListF, Bool.and_eq_true] at hwf
    simp only [frameDepthList, Nat.max_le] at hdep
    have hdrop1 : c.buf.drop c.pos = encodeF f ++ (encodeFs fs ++ rest) := by
      rw [hdrop, encodeFs, List.append_assoc]
    have hstep := IH f c (encodeFs fs ++ rest) hwf.1 hdep.1 hdrop1
    show parseN (parseF fuel) (fs.length + 1) c = _
    rw [parseN, hstep]
    dsimp only
    have hdrop2 : (Cur.mk c.buf (c.pos + (encodeF f).length)).buf.drop
        (Cur.mk c.buf (c.pos + (encodeF f).length)).pos = encodeFs fs ++ rest := by
      show c.buf.drop (c.pos + (encodeF f).length) = _
      rw [drop_shift c _ _ hdrop1, List.drop_left]
    rw [ih ⟨c.buf, c.pos + (encodeF f).length⟩ rest hwf.2 hdep.2 hdrop2]
    simp only [Prod.mk.injEq, Cur.mk.injEq, encodeFs, List.length_append, true_and]
    omega

theorem parse_encode (fuel : Nat) :
    ∀ f c rest, wfF f = true → frameDepth f ≤ fuel →
      c.buf.drop c.pos = encodeF f ++ rest →
      parseF fuel c = (.ok f, ⟨c.buf, c.pos + (encodeF f).length⟩) := by
  induction fuel with
  | zero =>
    intro f c rest _ hdep _
    exact absurd hdep (by have := frameDepth_pos f; omega)
  | succ fuel ih =>
    intro f c rest hwf hdep hdrop
    cases f with
    | simple s =>
      simp only [wfF, Bool.and_eq_true] at hwf
      have hdrop1 : c.buf.drop c.pos = 43 :: (s ++ 13 :: 10 :: rest) := by
        rw [hdrop]; simp [encodeF]
      have hdrop2 : c.buf.drop (c.pos + 1) = s ++ 13 :: 10 :: rest :=
        drop_shift c 1 _ hdrop1
      unfold parseF
      rw [getU8_drop_cons c 43 _ hdrop1]
      dsimp only
      rw [if_pos rfl]
      rw [getLine_drop_ok ⟨c.buf, c.pos + 1⟩ s rest hdrop2 hwf.1]
      dsimp only
      rw [if_pos hwf.2]
      simp only [Prod.mk.injEq, Cur.mk.injEq, encodeF_len_simple, true_and,
        List.length_cons, List.length_append, List.length_nil]
      omega
    | error s =>
      simp only [wfF, Bool.and_eq_true] at hwf
      have hdrop1 : c.buf.drop c.pos = 45 :: (s ++ 13 :: 10 :: rest) := by
        rw [hdrop]; simp [encodeF]
      have hdrop2 : c.buf.drop (c.pos + 1) = s ++ 13 :: 10 :: rest :=
        drop_shift c 1 _ hdrop1
      unfold parseF
      rw [getU8_drop_cons c 45 _ hdrop1]
      dsimp only
      rw [if_neg (by omega), if_pos rfl]
      rw [getLine_drop_ok ⟨c.buf, c.pos + 1⟩ s rest hdrop2 hwf.1]
      dsimp only
      rw [if_pos hwf.2]
      simp only [Prod.mk.injEq, Cur.mk.injEq, encodeF_len_error, true_and,
        List.length_cons, List.length_append, List.length_nil]
      omega
    | integer n =>
      simp only [wfF, decide_eq_true_eq] at hwf
      have hdrop1 : c.buf.drop c.pos = 58 :: (intToStr n ++ 13 :: 10 :: rest) := by
        rw [hdrop]; simp [encodeF]
      have hdrop2 : c.buf.drop (c.pos + 1) = intToStr n ++ 13 :: 10 :: rest :=
        drop_shift c 1 _ hdrop1
      unfold parseF
      rw [getU8_drop_cons c 58 _ hdrop1]
      dsimp only
      rw [if_neg (by omega), if_neg (by omega), if_pos rfl]
      rw [getDecimal_drop_ok ⟨c.buf, c.pos + 1⟩ (intToStr n) rest n
        hdrop2 (noCRLF_intToStr n) (validUtf8_intToStr n)
        (rustParseI64_intToStr n (by omega) (by omega))]
      simp only [Prod.mk.injEq, Cur.mk.injEq, encodeF_len_integer, true_and,
        List.length_cons, List.length_append, List.length_nil]
      omega
    | bulk d =>
      simp only [wfF, decide_eq_true_eq] at hwf
      have hdrop1 : c.buf.drop c.pos =
          36 :: (natToStr d.length ++ 13 :: 10 :: (d ++ 13 :: 10 :: rest)) := by
        rw [hdrop]; simp [encodeF]
      have hdrop2 : c.buf.drop (c.pos + 1) =
          natToStr d.length ++ 13 :: 10 :: (d ++ 13 :: 10 :: rest) :=
        drop_shift c 1 _ hdrop1
      unfold parseF
      rw [getU8_drop_cons c 36 _ hdrop1]
      dsimp only
      rw [if_neg (by omega), if_neg (by omega), if_neg (by omega), if_pos rfl]
      rw [getDecimal_drop_ok ⟨c.buf, c.pos + 1⟩ (natToStr d.length) _ (d.length : Int)
        hdrop2 (noCRLF_natToStr _) (validUtf8_natToStr _)
        (rustParseI64_natToStr d.length (by push_cast; omega))]
      dsimp only
      rw [if_neg (by omega)]
      have hdrop3 : c.buf.drop (c.pos + 1 + (natToStr d.length).length + 2) =
          d ++ 13 :: 10 :: rest := by
        have hk := drop_shift c (1 + (natToStr d.length).length + 2) _ hdrop1
        have hsh : ((36 : Nat) :: (natToStr d.length ++ 13 :: 10 :: (d ++ 13 :: 10 :: rest))).drop
            (1 + (natToStr d.length).length + 2) = d ++ 13 :: 10 :: rest := by
          rw [show (36 : Nat) :: (natToStr d.length ++ 13 :: 10 :: (d ++ 13 :: 10 :: rest)) =
            (36 :: (natToStr d.length ++ [13, 10])) ++ (d ++ 13 :: 10 :: rest) by simp]
          rw [show 1 + (natToStr d.length).length + 2 =
            ((36 : Nat) :: (natToStr d.length ++ [13, 10])).length by
              simp only [List.length_cons, List.length_append, List.length_nil]; omega]
          exact List.drop_left _ _
        rw [show c.pos + 1 + (natToStr d.length).length + 2 =
          c.pos + (1 + (natToStr d.length).length + 2) by omega, hk, hsh]
      have hcast : usizeOfInt ((d.length : Nat) : Int) = d.length :=
        usizeOfInt_ofNat d.length (by omega)
      rw [show (Cur.mk c.buf (c.pos + 1 + (natToStr d.length).length + 2)).buf.drop
          (Cur.mk c.buf (c.pos + 1 + (natToStr d.length).length + 2)).pos =
          d ++ 13 :: 10 :: rest from hdrop3]
      simp only [hcast]
      rw [if_neg (by
        rw [remaining_eq ⟨c.buf, c.pos + 1 + (natToStr d.length).length + 2⟩
          (d ++ 13 :: 10 :: rest) hdrop3]
        simp only [List.length_append, List.length_cons]
        omega)]
      rw [List.take_left]
      simp only [Prod.mk.injEq, Cur.mk.injEq, encodeF_len_bulk, true_and,
        List.length_cons, List.length_append, List.length_nil]
      omega
    | null =>
      have hdrop1 : c.buf.drop c.pos = 36 :: ([45, 49] ++ 13 :: 10 :: rest) := by
        rw [hdrop]; simp [encodeF]
      have hdrop2 : c.buf.drop (c.pos + 1) = [45, 49] ++ 13 :: 10 :: rest :=
        drop_shift c 1 _ hdrop1
      unfold parseF
      rw [getU8_drop_cons c 36 _ hdrop1]
      dsimp only
      rw [if_neg (by omega), if_neg (by omega), if_neg (by omega), if_pos rfl]
      rw [getDecimal_drop_ok ⟨c.buf, c.pos + 1⟩ [45, 49] _ (-1 : Int)
        hdrop2 (by decide) (by decide) (by decide)]
      dsimp only
      rw [if_pos rfl]
      simp only [Prod.mk.injEq, Cur.mk.injEq, encodeF_len_null, true_and,
        List.length_cons, List.length_append, List.length_nil]
      try omega
    | array l =>
      simp only [wfF, Bool.and_eq_true, decide_eq_true_eq] at hwf
      have hdep2 : frameDepthList l ≤ fuel := by
        simp only [frameDepth] at hdep
        omega
      have hdrop1 : c.buf.drop c.pos =
          42 :: (natToStr l.length ++ 13 :: 10 :: (encodeFs l ++ rest)) := by
        rw [hdrop]; simp [encodeF]
      have hdrop2 : c.buf.drop (c.pos + 1) =
          natToStr l.length ++ 13 :: 10 :: (encodeFs l ++ rest) :=
        drop_shift c 1 _ hdrop1
      unfold parseF
      rw [getU8_drop_cons c 42 _ hdrop1]
      dsimp only
      rw [if_neg (by omega), if_neg (by omega), if_neg (by omega), if_neg (by omega),
        if_pos rfl]
      rw [getDecimal_drop_ok ⟨c.buf, c.pos + 1⟩ (natToStr l.length) _ (l.length : Int)
        hdrop2 (noCRLF_natToStr _) (validUtf8_natToStr _)
        (rustParseI64_natToStr l.length (by push_cast; omega))]
      dsimp only
      rw [if_neg (by omega)]
      have hdrop3 : c.buf.drop (c.pos + 1 + (natToStr l.length).length + 2) =
          encodeFs l ++ rest := by
        have hk := drop_shift c (1 + (natToStr l.length).length + 2) _ hdrop1
        have hsh : ((42 : Nat) :: (natToStr l.length ++ 13 :: 10 :: (encodeFs l ++ rest))).drop
            (1 + (natToStr l.length).length + 2) = encodeFs l ++ rest := by
          rw [show (42 : Nat) :: (natToStr l.length ++ 13 :: 10 :: (encodeFs l ++ rest)) =
            (42 :: (natToStr l.length ++ [13, 10])) ++ (encodeFs l ++ rest) by simp]
          rw [show 1 + (natToStr l.length).length + 2 =
            ((42 : Nat) :: (natToStr l.length ++ [13, 10])).length by
              simp only [List.length_cons, List.length_append, List.length_nil]; omega]
          exact List.drop_left _ _
        rw [show c.pos + 1 + (natToStr l.length).length + 2 =
          c.pos + (1 + (natToStr l.length).length + 2) by omega, hk, hsh]
      have hcast : usizeOfInt ((l.length : Nat) : Int) = l.length :=
        usizeOfInt_ofNat l.length (by omega)
      rw [hcast]
      rw [parseN_encodeFs fuel ih l
        ⟨c.buf, c.pos + 1 + (natToStr l.length).length + 2⟩ rest hwf.2 hdep2 hdrop3]
      simp only [Prod.mk.injEq, Cur.mk.injEq, encodeF_len_array, true_and,
        List.length_cons, List.length_append, List.length_nil]
      omega

/-! ## `Frame::check` returns `Incomplete` on every strict prefix -/

theorem checkN_take (fuel : Nat)
    (IHpre : ∀ f c n, wfF f = true → withinLimitF f = true →
      n < (encodeF f).length → n < fuel →
      c.buf.drop c.pos = (encodeF f).take n →
      (checkF fuel c).1 = .error .incomplete) :
    ∀ l c m, wfListF l = true → withinLimitListF l = true →
      m < (encodeFs l).length → m < fuel →
      c.buf.drop c.pos = (encodeFs l).take m →
      (checkN (checkF fuel) l.length c).1 = .error .incomplete := by
  intro l
  induction l with
  | nil =>
    intro c m _ _ hm _ _
    simp [encodeFs] at hm
  | cons f fs ih =>
    intro c m hwf hlim hm hfuel hdrop
    simp only [wfListF, Bool.and_eq_true] at hwf
    simp only [withinLimitListF, Bool.and_eq_true] at hlim
    simp only [encodeFs, List.length_append] at hm
    by_cases hcase : m < (encodeF f).length
    · have hdrop1 : c.buf.drop c.pos = (encodeF f).take m := by
        rw [hdrop, encodeFs, List.take_append_of_le_length (by omega)]
      have hfail := IHpre f c m hwf.1 hlim.1 hcase hfuel hdrop1
      show (checkN (checkF fuel) (fs.length + 1) c).1 = _
      rw [checkN]
      rcases hres : checkF fuel c with ⟨r, c1⟩
      cases r with
      | ok u =>
        rw [hres] at hfail
        exact absurd hfail (by simp)
      | error e =>
        rw [hres] at hfail
        dsimp only at hfail
        dsimp only
        exact hfail
    · have hm2 : m = (encodeF f).length + (m - (encodeF f).length) := by omega
      have hsplit : (encodeFs (f :: fs)).take m =
          encodeF f ++ (encodeFs fs).take (m - (encodeF f).length) := by
        rw [encodeFs]
        conv => lhs; rw [hm2]
        rw [List.take_append]
      have hdrop1 : c.buf.drop c.pos =
          encodeF f ++ (encodeFs fs).take (m - (encodeF f).length) := by
        rw [hdrop, hsplit]
      have hdepf : frameDepth f ≤ fuel := by
        have := depth_le_encode.1 f
        omega
      have hok := check_encode fuel f c _ hwf.1 hlim.1 hdepf hdrop1
      show (checkN (checkF fuel) (fs.length + 1) c).1 = _
      rw [checkN, hok]
      dsimp only
      apply ih ⟨c.buf, c.pos + (encodeF f).length⟩ (m - (encodeF f).length)
        hwf.2 hlim.2 (by omega) (by omega)
      show c.buf.drop (c.pos + (encodeF f).length) = _
      rw [drop_shift c _ _ hdrop1, List.drop_left]

theorem check_take_incomplete (fuel : Nat) :
    ∀ f c n, wfF f = true → withinLimitF f = true →
      n < (encodeF f).length → n < fuel →
      c.buf.drop c.pos = (encodeF f).take n →
      (checkF fuel c).1 = .error .incomplete := by
  induction fuel with
  | zero =>
    intro f c n _ _ _ hfuel _
    exact absurd hfuel (by omega)
  | succ fuel ih =>
    intro f c n hwf hlim hn hfuel hdrop
    cases f with
    | simple s =>
      simp only [wfF, Bool.and_eq_true] at hwf
      cases n with
      | zero =>
        have hnil : c.buf.drop c.pos = [] := by rw [hdrop]; simp
        unfold checkF
        rw [getU8_drop_nil c hnil]
      | succ m =>
        rw [encodeF_len_simple] at hn
        have hm : m ≤ s.length + 1 := by omega
        have hdrop1 : c.buf.drop c.pos = 43 :: ((s ++ 13 :: 10 :: ([] : Buf)).take m) := by
          rw [hdrop]
          rw [show encodeF (FrameV.simple s) = 43 :: (s ++ 13 :: 10 :: ([] : Buf)) from rfl]
          rw [List.take_succ_cons]
        unfold checkF
        rw [getU8_drop_cons c 43 _ hdrop1]
        dsimp only
        rw [if_pos (Or.inl rfl)]
        rw [getLine_drop_none ⟨c.buf, c.pos + 1⟩ (by
          show crlfAt (c.buf.drop (c.pos + 1)) = none
          rw [drop_shift c 1 _ hdrop1]
          simp only [List.drop_succ_cons, List.drop_zero]
          exact crlfAt_line_take s [] m hwf.1 hm)]
    | error s =>
      simp only [wfF, Bool.and_eq_true] at hwf
      cases n with
      | zero =>
        have hnil : c.buf.drop c.pos = [] := by rw [hdrop]; simp
        unfold checkF
        rw [getU8_drop_nil c hnil]
      | succ m =>
        rw [encodeF_len_error] at hn
        have hm : m ≤ s.length + 1 := by omega
        have hdrop1 : c.buf.drop c.pos = 45 :: ((s ++ 13 :: 10 :: ([] : Buf)).take m) := by
          rw [hdrop]
          rw [show encodeF (FrameV.error s) = 45 :: (s ++ 13 :: 10 :: ([] : Buf)) from rfl]
          rw [List.take_succ_cons]
        unfold checkF
        rw [getU8_drop_cons c 45 _ hdrop1]
        dsimp only
        rw [if_pos (Or.inr rfl)]
        rw [getLine_drop_none ⟨c.buf, c.pos + 1⟩ (by
          show crlfAt (c.buf.drop (c.pos + 1)) = none
          rw [drop_shift c 1 _ hdrop1]
          simp only [List.drop_succ_cons, List.drop_zero]
          exact crlfAt_line_take s [] m hwf.1 hm)]
    | integer n0 =>
      cases n with
      | zero =>
        have hnil : c.buf.drop c.pos = [] := by rw [hdrop]; simp
        unfold checkF
        rw [getU8_drop_nil c hnil]
      | succ m =>
        rw [encodeF_len_integer] at hn
        have hm : m ≤ (intToStr n0).length + 1 := by omega
        have hdrop1 : c.buf.drop c.pos =
            58 :: ((intToStr n0 ++ 13 :: 10 :: ([] : Buf)).take m) := by
          rw [hdrop]
          rw [show encodeF (FrameV.integer n0) =
            58 :: (intToStr n0 ++ 13 :: 10 :: ([] : Buf)) from rfl]
          rw [List.take_succ_cons]
        unfold checkF
        rw [getU8_drop_cons c 58 _ hdrop1]
        dsimp only
        rw [if_neg (by omega), if_pos rfl]
        rw [getLine_drop_none ⟨c.buf, c.pos + 1⟩ (by
          show crlfAt (c.buf.drop (c.pos + 1)) = none
          rw [drop_shift c 1 _ hdrop1]
          simp only [List.drop_succ_cons, List.drop_zero]
          exact crlfAt_line_take (intToStr n0) [] m (noCRLF_intToStr n0) hm)]
    | null =>
      cases n with
      | zero =>
        have hnil : c.buf.drop c.pos = [] := by rw [hdrop]; simp
        unfold checkF
        rw [getU8_drop_nil c hnil]
      | succ m =>
        rw [encodeF_len_null] at hn
        have hm : m ≤ ([45, 49] : Buf).length + 1 := by simp; omega
        have hdrop1 : c.buf.drop c.pos =
            36 :: ((([45, 49] : Buf) ++ 13 :: 10 :: ([] : Buf)).take m) := by
          rw [hdrop]
          rw [show encodeF FrameV.null =
            36 :: (([45, 49] : Buf) ++ 13 :: 10 :: ([] : Buf)) from rfl]
          rw [List.take_succ_cons]
        unfold checkF
        rw [getU8_drop_cons c 36 _ hdrop1]
        dsimp only
        rw [if_neg (by omega), if_neg (by omega), if_pos rfl]
        rw [getDecimal_drop_none ⟨c.buf, c.pos + 1⟩ (by
          show crlfAt (c.buf.drop (c.pos + 1)) = none
          rw [drop_shift c 1 _ hdrop1]
          simp only [List.drop_succ_cons, List.drop_zero]
          exact crlfAt_line_take [45, 49] [] m (by decide) hm)]
    | bulk d =>
      simp only [wfF, decide_eq_true_eq] at hwf
      simp only [withinLimitF, decide_eq_true_eq] at hlim
      cases n with
      | zero =>
        have hnil : c.buf.drop c.pos = [] := by rw [hdrop]; simp
        unfold checkF
        rw [getU8_drop_nil c hnil]
      | succ m =>
        rw [encodeF_len_bulk] at hn
        have hE : encodeF (FrameV.bulk d) =
            36 :: (natToStr d.length ++ 13 :: 10 :: (d ++ 13 :: 10 :: ([] : Buf))) := by
          simp [encodeF]
        have hdrop1 : c.buf.drop c.pos =
            36 :: ((natToStr d.length ++ 13 :: 10 :: (d ++ 13 :: 10 :: ([] : Buf))).take m) := by
          rw [hdrop, hE, List.take_succ_cons]
        by_cases hreg : m ≤ (natToStr d.length).length + 1
        · unfold checkF
          rw [getU8_drop_cons c 36 _ hdrop1]
          dsimp only
          rw [if_neg (by omega), if_neg (by omega), if_pos rfl]
          rw [getDecimal_drop_none ⟨c.buf, c.pos + 1⟩ (by
            show crlfAt (c.buf.drop (c.pos + 1)) = none
            rw [drop_shift c 1 _ hdrop1]
            simp only [List.drop_succ_cons, List.drop_zero]
            exact crlfAt_line_take (natToStr d.length) _ m (noCRLF_natToStr _) hreg)]
        · have hsplit : (natToStr d.length ++ 13 :: 10 :: (d ++ 13 :: 10 :: ([] : Buf))).take m =
              natToStr d.length ++ 13 :: 10 ::
                ((d ++ 13 :: 10 :: ([] : Buf)).take (m - (natToStr d.length).length - 2)) := by
            conv => lhs; rw [show m = (natToStr d.length).length +
              ((m - (natToStr d.length).length - 2) + 2) by omega]
            rw [List.take_append]
            rw [show (m - (natToStr d.length).length - 2) + 2 =
              ((m - (natToStr d.length).length - 2) + 1) + 1 by omega]
            rw [List.take_succ_cons, List.take_succ_cons]
          rw [hsplit] at hdrop1
          unfold checkF
          rw [getU8_drop_cons c 36 _ hdrop1]
          dsimp only
          rw [if_neg (by omega), if_neg (by omega), if_pos rfl]
          rw [getDecimal_drop_ok ⟨c.buf, c.pos + 1⟩ (natToStr d.length) _ (d.length : Int)
            (drop_shift c 1 _ hdrop1) (noCRLF_natToStr _) (validUtf8_natToStr _)
            (rustParseI64_natToStr d.length (by push_cast; omega))]
          dsimp only
          rw [if_neg (by omega), if_neg (by omega),
            if_neg (by simp only [Int.toNat_natCast]; omega)]
          have hdrop3 : c.buf.drop (c.pos + 1 + (natToStr d.length).length + 2) =
              (d ++ 13 :: 10 :: ([] : Buf)).take (m - (natToStr d.length).length - 2) := by
            have hk := drop_shift c (1 + (natToStr d.length).length + 2) _ hdrop1
            have hsh : ((36 : Nat) :: (natToStr d.length ++ 13 :: 10 ::
                ((d ++ 13 :: 10 :: ([] : Buf)).take (m - (natToStr d.length).length - 2)))).drop
                (1 + (natToStr d.length).length + 2) =
                (d ++ 13 :: 10 :: ([] : Buf)).take (m - (natToStr d.length).length - 2) := by
              rw [show (36 : Nat) :: (natToStr d.length ++ 13 :: 10 ::
                ((d ++ 13 :: 10 :: ([] : Buf)).take (m - (natToStr d.length).length - 2))) =
                (36 :: (natToStr d.length ++ [13, 10])) ++
                  ((d ++ 13 :: 10 :: ([] : Buf)).take (m - (natToStr d.length).length - 2)) by simp]
              rw [show 1 + (natToStr d.length).length + 2 =
                ((36 : Nat) :: (natToStr d.length ++ [13, 10])).length by
                  simp only [List.length_cons, List.length_append, List.length_nil]; omega]
              exact List.drop_left _ _
            rw [show c.pos + 1 + (natToStr d.length).length + 2 =
              c.pos + (1 + (natToStr d.length).length + 2) by omega, hk, hsh]
          rw [skip_drop_incomplete ⟨c.buf, c.pos + 1 + (natToStr d.length).length + 2⟩
            _ (((d.length : Nat) : Int).toNat + 2) hdrop3
            (by
              simp only [Int.toNat_natCast, List.length_take, List.length_append,
                List.length_cons, List.length_nil]
              omega)]
    | array l =>
      simp only [wfF, Bool.and_eq_true, decide_eq_true_eq] at hwf
      simp only [withinLimitF] at hlim
      cases n with
      | zero =>
        have hnil : c.buf.drop c.pos = [] := by rw [hdrop]; simp
        unfold checkF
        rw [getU8_drop_nil c hnil]
      | succ m =>
        rw [encodeF_len_array] at hn
        have hE : encodeF (FrameV.array l) =
            42 :: (natToStr l.length ++ 13 :: 10 :: (encodeFs l ++ ([] : Buf))) := by
          simp [encodeF]
        have hdrop1 : c.buf.drop c.pos =
            42 :: ((natToStr l.length ++ 13 :: 10 :: (encodeFs l ++ ([] : Buf))).take m) := by
          rw [hdrop, hE, List.take_succ_cons]
        by_cases hreg : m ≤ (natToStr l.length).length + 1
        · unfold checkF
          rw [getU8_drop_cons c 42 _ hdrop1]
          dsimp only
          rw [if_neg (by omega), if_neg (by omega), if_neg (by omega), if_pos rfl]
          rw [getDecimal_drop_none ⟨c.buf, c.pos + 1⟩ (by
            show crlfAt (c.buf.drop (c.pos + 1)) = none
            rw [drop_shift c 1 _ hdrop1]
            simp only [List.drop_succ_cons, List.drop_zero]
            exact crlfAt_line_take (natToStr l.length) _ m (noCRLF_natToStr _) hreg)]
        · have hsplit : (natToStr l.length ++ 13 :: 10 :: (encodeFs l ++ ([] : Buf))).take m =
              natToStr l.length ++ 13 :: 10 ::
                ((encodeFs l ++ ([] : Buf)).take (m - (natToStr l.length).length - 2)) := by
            conv => lhs; rw [show m = (natToStr l.length).length +
              ((m - (natToStr l.length).length - 2) + 2) by omega]
            rw [List.take_append]
            rw [show (m - (natToStr l.length).length - 2) + 2 =
              ((m - (natToStr l.length).length - 2) + 1) + 1 by omega]
            rw [List.take_succ_cons, List.take_succ_cons]
          rw [hsplit] at hdrop1
          unfold checkF
          rw [getU8_drop_cons c 42 _ hdrop1]
          dsimp only
          rw [if_neg (by omega), if_neg (by omega), if_neg (by omega), if_pos rfl]
          rw [getDecimal_drop_ok ⟨c.buf, c.pos + 1⟩ (natToStr l.length) _ (l.length : Int)
            (drop_shift c 1 _ hdrop1) (noCRLF_natToStr _) (validUtf8_natToStr _)
            (rustParseI64_natToStr l.length (by push_cast; omega))]
          dsimp only
          rw [if_neg (by omega), if_neg (by omega)]
          have hdrop3 : c.buf.drop (c.pos + 1 + (natToStr l.length).length + 2) =
              (encodeFs l).take (m - (natToStr l.length).length - 2) := by
            have hk := drop_shift c (1 + (natToStr l.length).length + 2) _ hdrop1
            have hsh : ((42 : Nat) :: (natToStr l.length ++ 13 :: 10 ::
                ((encodeFs l ++ ([] : Buf)).take (m - (natToStr l.length).length - 2)))).drop
                (1 + (natToStr l.length).length + 2) =
                (encodeFs l ++ ([] : Buf)).take (m - (natToStr l.length).length - 2) := by
              rw [show (42 : Nat) :: (natToStr l.length ++ 13 :: 10 ::
                ((encodeFs l ++ ([] : Buf)).take (m - (natToStr l.length).length - 2))) =
                (42 :: (natToStr l.length ++ [13, 10])) ++
                  ((encodeFs l ++ ([] : Buf)).take (m - (natToStr l.length).length - 2)) by simp]
              rw [show 1 + (natToStr l.length).length + 2 =
                ((42 : Nat) :: (natToStr l.length ++ [13, 10])).length by
                  simp only [List.length_cons, List.length_append, List.length_nil]; omega]
              exact List.drop_left _ _
            rw [show c.pos + 1 + (natToStr l.length).length + 2 =
              c.pos + (1 + (natToStr l.length).length + 2) by omega, hk, hsh]
            simp
          rw [show (((l.length : Nat) : Int)).toNat = l.length by simp]
          exact checkN_take fuel ih l ⟨c.buf, c.pos + 1 + (natToStr l.length).length + 2⟩
            (m - (natToStr l.length).length - 2) hwf.2 hlim
            (by omega) (by omega) hdrop3

/-! ## `parse` after a successful `check`: same bytes consumed, never `Incomplete` -/

theorem rustParseI64_range (l : Buf) (n : Int) (h : rustParseI64 l = some n) :
    -(2 ^ 63) ≤ n ∧ n ≤ 2 ^ 63 - 1 := by
  match l with
  | [] => simp [rustParseI64] at h
  | b :: rest =>
    rw [rustParseI64_cons] at h
    by_cases h43 : b = 43
    · rw [if_pos h43] at h
      cases hv : digitsVal rest with
      | none => rw [hv] at h; simp at h
      | some v =>
        rw [hv] at h
        simp only [Option.some_bind] at h
        by_cases hle : (v : Int) ≤ 2 ^ 63 - 1
        · rw [if_pos hle] at h
          have : n = (v : Int) := by simpa using h.symm
          omega
        · rw [if_neg hle] at h; simp at h
    · rw [if_neg h43] at h
      by_cases h45 : b = 45
      · rw [if_pos h45] at h
        cases hv : digitsVal rest with
        | none => rw [hv] at h; simp at h
        | some v =>
          rw [hv] at h
          simp only [Option.some_bind] at h
          by_cases hle : (v : Int) ≤ 2 ^ 63
          · rw [if_pos hle] at h
            have : n = -(v : Int) := by simpa using h.symm
            omega
          · rw [if_neg hle] at h; simp at h
      · rw [if_neg h45] at h
        cases hv : digitsVal (b :: rest) with
        | none => rw [hv] at h; simp at h
        | some v =>
          rw [hv] at h
          simp only [Option.some_bind] at h
          by_cases hle : (v : Int) ≤ 2 ^ 63 - 1
          · rw [if_pos hle] at h
            have : n = (v : Int) := by simpa using h.symm
            omega
          · rw [if_neg hle] at h; simp at h

theorem getDecimal_bounds (c c' : Cur) (n : Int) (h : getDecimal c = (.ok n, c')) :
    -(2 ^ 63) ≤ n ∧ n ≤ 2 ^ 63 - 1 := by
  unfold getDecimal at h
  rcases hgl : getLine c with ⟨rl, cl⟩
  rw [hgl] at h
  cases rl with
  | error e => simp at h
  | ok line =>
    dsimp only at h
    by_cases hu : validUtf8 line
    · rw [if_pos hu] at h
      cases hp : rustParseI64 line with
      | none => rw [hp] at h; simp at h
      | some m =>
        rw [hp] at h
        simp only [Prod.mk.injEq] at h
        have hm : m = n := by
          have := h.1
          exact Except.ok.inj this
        rw [hm] at hp
        exact rustParseI64_range line n hp
    · rw [if_neg hu] at h; simp at h

theorem usizeOfInt_toNat (i : Int) (h0 : 0 ≤ i) (h1 : i < 2 ^ 64) :
    usizeOfInt i = i.toNat := by
  unfold usizeOfInt
  rw [Int.emod_eq_of_lt h0 h1]

theorem checkN_parseN_rel (fuel : Nat)
    (IH : ∀ c c1, checkF fuel c = (.ok (), c1) →
      (∀ f c2, parseF fuel c = (.ok f, c2) → c2 = c1) ∧
      (∀ e c2, parseF fuel c = (.error e, c2) →
        e = .invalidEncoding ∨ e = .invalidInteger)) :
    ∀ count c c1, checkN (checkF fuel) count c = (.ok (), c1) →
      (∀ fs c2, parseN (parseF fuel) count c = (.ok fs, c2) → c2 = c1) ∧
      (∀ e c2, parseN (parseF fuel) count c = (.error e, c2) →
        e = .invalidEncoding ∨ e = .invalidInteger) := by
  intro count
  induction count with
  | zero =>
    intro c c1 hck
    simp only [checkN, Prod.mk.injEq] at hck
    constructor
    · intro fs c2 hp
      simp only [parseN, Prod.mk.injEq] at hp
      rw [← hp.2, hck.2]
    · intro e c2 hp
      simp only [parseN, Prod.mk.injEq] at hp
      exact absurd hp.1 (by simp)
  | succ n ih =>
    intro c c1 hck
    rw [checkN] at hck
    rcases hc : checkF fuel c with ⟨rc, cm⟩
    rw [hc] at hck
    cases rc with
    | error e => simp at hck
    | ok u =>
      dsimp only at hck
      have hrel := IH c cm (by rw [hc])
      have hrec := ih cm c1 hck
      constructor
      · intro fs c2 hp
        rw [parseN] at hp
        rcases hpp : parseF fuel c with ⟨rp, cp⟩
        rw [hpp] at hp
        cases rp with
        | error e => simp at hp
        | ok f =>
          dsimp only at hp
          have hcp : cp = cm := hrel.1 f cp hpp
          rcases hq : parseN (parseF fuel) n cp with ⟨rq, cq⟩
          rw [hq] at hp
          cases rq with
          | error e => simp at hp
          | ok fs2 =>
            simp only [Prod.mk.injEq] at hp
            rw [← hp.2]
            rw [hcp] at hq
            exact hrec.1 fs2 cq hq
      · intro e c2 hp
        rw [parseN] at hp
        rcases hpp : parseF fuel c with ⟨rp, cp⟩
        rw [hpp] at hp
        cases rp with
        | error e2 =>
          dsimp only at hp
          simp only [Prod.mk.injEq] at hp
          have : e2 = e := Except.error.inj hp.1
          rw [← this]
          exact hrel.2 e2 cp hpp
        | ok f =>
          dsimp only at hp
          have hcp : cp = cm := hrel.1 f cp hpp
          rcases hq : parseN (parseF fuel) n cp with ⟨rq, cq⟩
          rw [hq] at hp
          cases rq with
          | ok fs2 => simp at hp
          | error e2 =>
            simp only [Prod.mk.injEq] at hp
            have : e2 = e := Except.error.inj hp.1
            rw [← this]
            rw [hcp] at hq
            exact hrec.2 e2 cq hq

theorem check_parse_rel (fuel : Nat) :
    ∀ c c1, checkF fuel c = (.ok (), c1) →
      (∀ f c2, parseF fuel c = (.ok f, c2) → c2 = c1) ∧
      (∀ e c2, parseF fuel c = (.error e, c2) →
        e = .invalidEncoding ∨ e = .invalidInteger) := by
  induction fuel with
  | zero =>
    intro c c1 hck
    simp [checkF] at hck
  | succ fuel ih =>
    intro c c1 hck
    unfold checkF at hck
    unfold parseF
    rcases hd : c.buf.drop c.pos with _ | ⟨b, l⟩
    · rw [getU8_drop_nil c hd] at hck
      simp at hck
    · rw [getU8_drop_cons c b l hd] at hck
      rw [getU8_drop_cons c b l hd]
      dsimp only at hck ⊢
      by_cases h43 : b = 43
      · rw [if_pos (Or.inl h43)] at hck
        rw [if_pos h43]
        rcases hgl : getLine ⟨c.buf, c.pos + 1⟩ with ⟨rl, cl⟩
        rw [hgl] at hck
        cases rl with
        | error e => simp at hck
        | ok line =>
          dsimp only at hck ⊢
          have hc1 : cl = c1 := by
            simp only [Prod.mk.injEq] at hck
            exact hck.2
          constructor
          · intro f c2 hp
            by_cases hu : validUtf8 line
            · rw [if_pos hu] at hp
              simp only [Prod.mk.injEq] at hp
              rw [← hp.2, hc1]
            · rw [if_neg hu] at hp
              simp at hp
          · intro e c2 hp
            by_cases hu : validUtf8 line
            · rw [if_pos hu] at hp
              simp at hp
            · rw [if_neg hu] at hp
              simp only [Prod.mk.injEq] at hp
              exact Or.inl (Except.error.inj hp.1).symm
      · by_cases h45 : b = 45
        · rw [if_pos (Or.inr h45)] at hck
          rw [if_neg h43, if_pos h45]
          rcases hgl : getLine ⟨c.buf, c.pos + 1⟩ with ⟨rl, cl⟩
          rw [hgl] at hck
          cases rl with
          | error e => simp at hck
          | ok line =>
            dsimp only at hck ⊢
            have hc1 : cl = c1 := by
              simp only [Prod.mk.injEq] at hck
              exact hck.2
            constructor
            · intro f c2 hp
              by_cases hu : validUtf8 line
              · rw [if_pos hu] at hp
                simp only [Prod.mk.injEq] at hp
                rw [← hp.2, hc1]
              · rw [if_neg hu] at hp
                simp at hp
            · intro e c2 hp
              by_cases hu : validUtf8 line
              · rw [if_pos hu] at hp
                simp at hp
              · rw [if_neg hu] at hp
                simp only [Prod.mk.injEq] at hp
                exact Or.inl (Except.error.inj hp.1).symm
        · rw [if_neg (by rintro (h | h) <;> [exact h43 h; exact h45 h])] at hck
          rw [if_neg h43, if_neg h45]
          by_cases h58 : b = 58
          · rw [if_pos h58] at hck
            rw [if_pos h58]
            rcases hgl : getLine ⟨c.buf, c.pos + 1⟩ with ⟨rl, cl⟩
            rw [hgl] at hck
            cases rl with
            | error e => simp at hck
            | ok line =>
              dsimp only at hck
              have hc1 : cl = c1 := by
                simp only [Prod.mk.injEq] at hck
                exact hck.2
              unfold getDecimal
              rw [hgl]
              dsimp only
              constructor
              · intro f c2 hp
                by_cases hu : validUtf8 line
                · rw [if_pos hu] at hp
                  cases hrp : rustParseI64 line with
                  | none => rw [hrp] at hp; simp at hp
                  | some v =>
                    rw [hrp] at hp
                    simp only [Prod.mk.injEq] at hp
                    rw [← hp.2, hc1]
                · rw [if_neg hu] at hp
                  simp at hp
              · intro e c2 hp
                by_cases hu : validUtf8 line
                · rw [if_pos hu] at hp
                  cases hrp : rustParseI64 line with
                  | none =>
                    rw [hrp] at hp
                    simp only [Prod.mk.injEq] at hp
                    exact Or.inr (Except.error.inj hp.1).symm
                  | some v => rw [hrp] at hp; simp at hp
                · rw [if_neg hu] at hp
                  simp only [Prod.mk.injEq] at hp
                  exact Or.inr (Except.error.inj hp.1).symm
          · rw [if_neg h58] at hck ⊢
            by_cases h36 : b = 36
            · rw [if_pos h36] at hck
              rw [if_pos h36]
              rcases hgd : getDecimal ⟨c.buf, c.pos + 1⟩ with ⟨rd, cd⟩
              rw [hgd] at hck
              cases rd with
              | error e => simp at hck
              | ok len =>
                dsimp only at hck ⊢
                have hbounds := getDecimal_bounds _ _ _ hgd
                by_cases hm1 : len = -1
                · rw [if_pos hm1] at hck ⊢
                  simp only [Prod.mk.injEq] at hck
                  have hc1 : cd = c1 := hck.2
                  constructor
                  · intro f c2 hp
                    simp only [Prod.mk.injEq] at hp
                    rw [← hp.2, hc1]
                  · intro e c2 hp
                    simp at hp
                · rw [if_neg hm1] at hck ⊢
                  by_cases hneg : len < 0
                  · rw [if_pos hneg] at hck
                    simp at hck
                  · rw [if_neg hneg] at hck
                    by_cases hbig : MAX_FRAME_SIZE < len.toNat
                    · rw [if_pos hbig] at hck
                      simp at hck
                    · rw [if_neg hbig] at hck
                      unfold skip at hck
                      have hcast : usizeOfInt len = len.toNat :=
                        usizeOfInt_toNat len (by omega)
                          (by unfold MAX_FRAME_SIZE at hbig; omega)
                      rw [hcast]
                      by_cases hlt : cd.buf.length - cd.pos < len.toNat + 2
                      · rw [if_pos hlt] at hck
                        simp at hck
                      · rw [if_neg hlt] at hck
                        rw [if_neg hlt]
                        simp only [Prod.mk.injEq] at hck
                        have hc1 := hck.2
                        constructor
                        · intro f c2 hp
                          simp only [Prod.mk.injEq] at hp
                          rw [← hp.2, ← hc1]
                          simp only [Cur.mk.injEq]
                          exact ⟨trivial, by omega⟩
                        · intro e c2 hp
                          simp at hp
            · rw [if_neg h36] at hck ⊢
              by_cases h42 : b = 42
              · rw [if_pos h42] at hck
                rw [if_pos h42]
                rcases hgd : getDecimal ⟨c.buf, c.pos + 1⟩ with ⟨rd, cd⟩
                rw [hgd] at hck
                cases rd with
                | error e => simp at hck
                | ok count =>
                  dsimp only at hck ⊢
                  have hbounds := getDecimal_bounds _ _ _ hgd
                  by_cases hm1 : count = -1
                  · rw [if_pos hm1] at hck ⊢
                    simp only [Prod.mk.injEq] at hck
                    have hc1 : cd = c1 := hck.2
                    constructor
                    · intro f c2 hp
                      simp only [Prod.mk.injEq] at hp
                      rw [← hp.2, hc1]
                    · intro e c2 hp
                      simp at hp
                  · rw [if_neg hm1] at hck ⊢
                    by_cases hneg : count < 0
                    · rw [if_pos hneg] at hck
                      simp at hck
                    · rw [if_neg hneg] at hck
                      have hcast : usizeOfInt count = count.toNat :=
                        usizeOfInt_toNat count (by omega) (by omega)
                      rw [hcast]
                      have hrel := checkN_parseN_rel fuel ih count.toNat cd c1 hck
                      constructor
                      · intro f c2 hp
                        rcases hq : parseN (parseF fuel) count.toNat cd with ⟨rq, cq⟩
                        rw [hq] at hp
                        cases rq with
                        | error e => simp at hp
                        | ok fs =>
                          simp only [Prod.mk.injEq] at hp
                          rw [← hp.2]
                          exact hrel.1 fs cq hq
                      · intro e c2 hp
                        rcases hq : parseN (parseF fuel) count.toNat cd with ⟨rq, cq⟩
                        rw [hq] at hp
                        cases rq with
                        | ok fs => simp at hp
                        | error e2 =>
                          simp only [Prod.mk.injEq] at hp
                          rw [← Except.error.inj hp.1]
                          exact hrel.2 e2 cq hq
              · rw [if_neg h42] at hck
                simp at hck

/-! ## Command canonical encode/decode round trip -/

theorem frameAsString_bulk (k : Buf) (h : validUtf8 k = true) :
    frameAsString (.bulk k) = .ok k := by
  unfold frameAsString
  dsimp only
  rw [if_pos h]

theorem collectStrings_bulk (keys : List Buf) (h : ∀ k ∈ keys, validUtf8 k = true) :
    collectStrings (keys.map .bulk) = .ok keys := by
  induction keys with
  | nil => rfl
  | cons k ks ih =>
    simp only [List.map_cons, collectStrings]
    rw [frameAsString_bulk k (h k (List.mem_cons_self _ _))]
    rw [ih fun x hx => h x (List.mem_cons_of_mem _ hx)]

theorem collectBytes_bulk (vs : List Buf) :
    collectBytes (vs.map .bulk) = .ok vs := by
  induction vs with
  | nil => rfl
  | cons v xs ih =>
    simp only [List.map_cons, collectBytes]
    rw [show frameAsBytes (.bulk v) = .ok v from rfl, ih]

theorem frameAsInt_natToStr (n : Nat) (h : n < 2 ^ 63) :
    frameAsInt (.bulk (natToStr n)) = .ok (n : Int) := by
  unfold frameAsInt
  dsimp only
  rw [if_pos (validUtf8_natToStr n), rustParseI64_natToStr n (by push_cast; omega)]

theorem fromFrame_toFrame (cmd : CommandV) (h : goodWrite cmd = true) :
    fromFrame (toFrame cmd) = .ok cmd := by
  cases cmd with
  | set key value options =>
    simp only [goodWrite, goodKey, goodVal, Bool.and_eq_true, decide_eq_true_eq,
      Option.isNone_iff_eq_none] at h
    obtain ⟨⟨⟨hku, _⟩, _⟩, hexp⟩ := h
    rcases options with ⟨expireMs, condition⟩
    simp only at hexp
    subst hexp
    cases condition with
    | none =>
      rw [show fromFrame (toFrame (.set key value ⟨none, none⟩)) =
        (match frameAsString (.bulk key) with
         | .error e => Except.error e
         | .ok k =>
           match frameAsBytes (.bulk value) with
           | .error e => Except.error e
           | .ok v => Except.ok (CommandV.set k v ⟨none, none⟩)) from rfl]
      rw [frameAsString_bulk key hku]
      rfl
    | some cond =>
      cases cond with
      | nx =>
        rw [show fromFrame (toFrame (.set key value ⟨none, some .nx⟩)) =
          (match frameAsString (.bulk key) with
           | .error e => Except.error e
           | .ok k =>
             match frameAsBytes (.bulk value) with
             | .error e => Except.error e
             | .ok v => Except.ok (CommandV.set k v ⟨none, some .nx⟩)) from rfl]
        rw [frameAsString_bulk key hku]
        rfl
      | xx =>
        rw [show fromFrame (toFrame (.set key value ⟨none, some .xx⟩)) =
          (match frameAsString (.bulk key) with
           | .error e => Except.error e
           | .ok k =>
             match frameAsBytes (.bulk value) with
             | .error e => Except.error e
             | .ok v => Except.ok (CommandV.set k v ⟨none, some .xx⟩)) from rfl]
        rw [frameAsString_bulk key hku]
        rfl
  | del keys =>
    simp only [goodWrite, Bool.and_eq_true, decide_eq_true_eq, Bool.not_eq_true',
      List.all_eq_true] at h
    obtain ⟨⟨hne, hall⟩, _⟩ := h
    cases keys with
    | nil => simp at hne
    | cons k ks =>
      rw [show fromFrame (toFrame (.del (k :: ks))) =
        (match collectStrings ((k :: ks).map .bulk) with
         | .ok ks2 => Except.ok (CommandV.del ks2)
         | .error e => Except.error e) from rfl]
      rw [collectStrings_bulk (k :: ks) (fun x hx => by
        have := hall x hx
        simpa [goodKey] using (Bool.and_eq_true _ _ |>.mp this).1)]
  | incr key =>
    simp only [goodWrite, goodKey, Bool.and_eq_true, decide_eq_true_eq] at h
    rw [show fromFrame (toFrame (.incr key)) =
      (match frameAsString (.bulk key) with
       | .error e => Except.error e
       | .ok k => Except.ok (CommandV.incr k)) from rfl]
    rw [frameAsString_bulk key h.1]
  | decr key =>
    simp only [goodWrite, goodKey, Bool.and_eq_true, decide_eq_true_eq] at h
    rw [show fromFrame (toFrame (.decr key)) =
      (match frameAsString (.bulk key) with
       | .error e => Except.error e
       | .ok k => Except.ok (CommandV.decr k)) from rfl]
    rw [frameAsString_bulk key h.1]
  | lpush key values =>
    simp only [goodWrite, goodKey, Bool.and_eq_true, decide_eq_true_eq,
      Bool.not_eq_true', List.all_eq_true] at h
    obtain ⟨⟨⟨⟨hku, _⟩, hne⟩, _⟩, _⟩ := h
    cases values with
    | nil => simp at hne
    | cons v vs =>
      rw [show fromFrame (toFrame (.lpush key (v :: vs))) =
        (match frameAsString (.bulk key) with
         | .error e => Except.error e
         | .ok k =>
           match collectBytes ((v :: vs).map .bulk) with
           | .ok vs2 => Except.ok (CommandV.lpush k vs2)
           | .error e => Except.error e) from rfl]
      rw [frameAsString_bulk key hku, collectBytes_bulk (v :: vs)]
  | rpush key values =>
    simp only [goodWrite, goodKey, Bool.and_eq_true, decide_eq_true_eq,
      Bool.not_eq_true', List.all_eq_true] at h
    obtain ⟨⟨⟨⟨hku, _⟩, hne⟩, _⟩, _⟩ := h
    cases values with
    | nil => simp at hne
    | cons v vs =>
      rw [show fromFrame (toFrame (.rpush key (v :: vs))) =
        (match frameAsString (.bulk key) with
         | .error e => Except.error e
         | .ok k =>
           match collectBytes ((v :: vs).map .bulk) with
           | .ok vs2 => Except.ok (CommandV.rpush k vs2)
           | .error e => Except.error e) from rfl]
      rw [frameAsString_bulk key hku, collectBytes_bulk (v :: vs)]
  | lpop key count =>
    simp only [goodWrite, goodKey, Bool.and_eq_true, decide_eq_true_eq] at h
    obtain ⟨⟨hku, _⟩, hc⟩ := h
    cases count with
    | none =>
      rw [show fromFrame (toFrame (.lpop key none)) =
        (match frameAsString (.bulk key) with
         | .error e => Except.error e
         | .ok k => Except.ok (CommandV.lpop k none)) from rfl]
      rw [frameAsString_bulk key hku]
    | some n =>
      simp only [decide_eq_true_eq] at hc
      rw [show fromFrame (toFrame (.lpop key (some n))) =
        (match frameAsString (.bulk key) with
         | .error e => Except.error e
         | .ok k =>
           match frameAsInt (.bulk (natToStr n)) with
           | .error e => Except.error e
           | .ok i => Except.ok (CommandV.lpop k (some (usizeOfInt i)))) from rfl]
      rw [frameAsString_bulk key hku, frameAsInt_natToStr n hc]
      dsimp only
      rw [usizeOfInt_ofNat n (by omega)]
  | rpop key count =>
    simp only [goodWrite, goodKey, Bool.and_eq_true, decide_eq_true_eq] at h
    obtain ⟨⟨hku, _⟩, hc⟩ := h
    cases count with
    | none =>
      rw [show fromFrame (toFrame (.rpop key none)) =
        (match frameAsString (.bulk key) with
         | .error e => Except.error e
         | .ok k => Except.ok (CommandV.rpop k none)) from rfl]
      rw [frameAsString_bulk key hku]
    | some n =>
      simp only [decide_eq_true_eq] at hc
      rw [show fromFrame (toFrame (.rpop key (some n))) =
        (match frameAsString (.bulk key) with
         | .error e => Except.error e
         | .ok k =>
           match frameAsInt (.bulk (natToStr n)) with
           | .error e => Except.error e
           | .ok i => Except.ok (CommandV.rpop k (some (usizeOfInt i)))) from rfl]
      rw [frameAsString_bulk key hku, frameAsInt_natToStr n hc]
      dsimp only
      rw [usizeOfInt_ofNat n (by omega)]
  | ping msg => simp [goodWrite] at h
  | echo msg => simp [goodWrite] at h
  | get key => simp [goodWrite] at h
  | existsCmd keys => simp [goodWrite] at h
  | lrange key a b => simp [goodWrite] at h
  | subscribe cs => simp [goodWrite] at h
  | unsubscribe cs => simp [goodWrite] at h
  | publish ch m => simp [goodWrite] at h
  | unknown name => simp [goodWrite] at h

/-! ## Well-formedness of canonical command frames -/

theorem natDigitsRev_len_le (k : Nat) :
    ∀ n, n < 10 ^ k → 1 ≤ k → (natDigitsRev n).length ≤ k := by
  induction k with
  | zero => omega
  | succ k ih =>
    intro n hn _
    rw [natDigitsRev]
    by_cases h10 : n < 10
    · rw [dif_pos h10]
      simp only [List.length_cons, List.length_nil]
      omega
    · rw [dif_neg h10]
      simp only [List.length_cons]
      have hdiv : n / 10 < 10 ^ k := by
        rw [Nat.div_lt_iff_lt_mul (by omega)]
        calc n < 10 ^ (k + 1) := hn
        _ = 10 ^ k * 10 := by ring
      cases k with
      | zero => simp at hdiv; omega
      | succ k2 =>
        have := ih (n / 10) hdiv (by omega)
        omega

theorem natToStr_len_le_19 (n : Nat) (h : n < 2 ^ 63) : (natToStr n).length ≤ 19 := by
  unfold natToStr
  rw [List.length_reverse]
  exact natDigitsRev_len_le 19 n (by omega) (by omega)

theorem toFrame_wf (cmd : CommandV) (h : goodWrite cmd = true) :
    wfF (toFrame cmd) = true ∧ withinLimitF (toFrame cmd) = true := by
  cases cmd with
  | set key value options =>
    simp only [goodWrite, goodKey, goodVal, Bool.and_eq_true, decide_eq_true_eq,
      Option.isNone_iff_eq_none] at h
    obtain ⟨⟨⟨hku, hkl⟩, hvl⟩, hexp⟩ := h
    rcases options with ⟨expireMs, condition⟩
    simp only at hexp
    subst hexp
    have hM : MAX_FRAME_SIZE = 2 ^ 26 := by norm_num [MAX_FRAME_SIZE]
    have hS : (ascii "SET").length = 3 := rfl
    cases condition with
    | none =>
      simp only [toFrame, List.append_nil, wfF, wfListF, withinLimitF, withinLimitListF,
        Bool.and_eq_true, decide_eq_true_eq, List.length_cons, List.length_nil]
      exact ⟨⟨by omega, by omega, by omega, by omega, trivial⟩,
        by omega, by omega, by omega, trivial⟩
    | some cond =>
      cases cond with
      | nx =>
        have hN : (ascii "NX").length = 2 := rfl
        simp only [toFrame, List.append_nil, List.cons_append, List.nil_append,
          wfF, wfListF, withinLimitF, withinLimitListF,
          Bool.and_eq_true, decide_eq_true_eq, List.length_cons, List.length_nil]
        exact ⟨⟨by omega, by omega, by omega, by omega, by omega, trivial⟩,
          by omega, by omega, by omega, by omega, trivial⟩
      | xx =>
        have hX : (ascii "XX").length = 2 := rfl
        simp only [toFrame, List.append_nil, List.cons_append, List.nil_append,
          wfF, wfListF, withinLimitF, withinLimitListF,
          Bool.and_eq_true, decide_eq_true_eq, List.length_cons, List.length_nil]
        exact ⟨⟨by omega, by omega, by omega, by omega, by omega, trivial⟩,
          by omega, by omega, by omega, by omega, trivial⟩
  | del keys =>
    simp only [goodWrite, Bool.and_eq_true, decide_eq_true_eq, Bool.not_eq_true',
      List.all_eq_true] at h
    obtain ⟨⟨hne, hall⟩, hlen⟩ := h
    simp only [toFrame, wfF, wfListF, withinLimitF, withinLimitListF,
      Bool.and_eq_true, decide_eq_true_eq, List.length_cons, List.length_map]
    have hkeys : wfListF (keys.map .bulk) = true ∧
        withinLimitListF (keys.map .bulk) = true := by
      clear hne hlen
      induction keys with
      | nil => exact ⟨rfl, rfl⟩
      | cons k ks ih =>
        have hk := hall k (List.mem_cons_self _ _)
        simp only [goodKey, Bool.and_eq_true, decide_eq_true_eq] at hk
        have hrest := ih fun x hx => hall x (List.mem_cons_of_mem _ hx)
        simp only [List.map_cons, wfListF, withinLimitListF, Bool.and_eq_true]
        refine ⟨⟨?_, hrest.1⟩, ⟨?_, hrest.2⟩⟩
        · simp only [wfF, decide_eq_true_eq]
          have : MAX_FRAME_SIZE = 2 ^ 26 := by norm_num [MAX_FRAME_SIZE]
          omega
        · simp only [withinLimitF, decide_eq_true_eq]
          exact hk.2
    refine ⟨⟨by omega, ?_, hkeys.1⟩, ?_, hkeys.2⟩
    · decide
    · decide
  | incr key =>
    simp only [goodWrite, goodKey, Bool.and_eq_true, decide_eq_true_eq] at h
    simp only [toFrame, wfF, wfListF, withinLimitF, withinLimitListF,
      Bool.and_eq_true, decide_eq_true_eq, List.length_cons, List.length_nil]
    have : MAX_FRAME_SIZE = 2 ^ 26 := by norm_num [MAX_FRAME_SIZE]
    refine ⟨⟨by omega, by decide, by omega, trivial⟩, by decide, by omega, trivial⟩
  | decr key =>
    simp only [goodWrite, goodKey, Bool.and_eq_true, decide_eq_true_eq] at h
    simp only [toFrame, wfF, wfListF, withinLimitF, withinLimitListF,
      Bool.and_eq_true, decide_eq_true_eq, List.length_cons, List.length_nil]
    have : MAX_FRAME_SIZE = 2 ^ 26 := by norm_num [MAX_FRAME_SIZE]
    refine ⟨⟨by omega, by decide, by omega, trivial⟩, by decide, by omega, trivial⟩
  | lpush key values =>
    simp only [goodWrite, goodKey, Bool.and_eq_true, decide_eq_true_eq,
      Bool.not_eq_true', List.all_eq_true] at h
    obtain ⟨⟨⟨⟨hku, hkl⟩, hne⟩, hall⟩, hlen⟩ := h
    simp only [toFrame, wfF, wfListF, withinLimitF, withinLimitListF,
      Bool.and_eq_true, decide_eq_true_eq, List.length_cons, List.length_map]
    have : MAX_FRAME_SIZE = 2 ^ 26 := by norm_num [MAX_FRAME_SIZE]
    have hvals : wfListF (values.map .bulk) = true ∧
        withinLimitListF (values.map .bulk) = true := by
      clear hne hlen
      induction values with
      | nil => exact ⟨rfl, rfl⟩
      | cons v vs ih =>
        have hv := hall v (List.mem_cons_self _ _)
        simp only [goodVal, decide_eq_true_eq] at hv
        have hrest := ih fun x hx => hall x (List.mem_cons_of_mem _ hx)
        simp only [List.map_cons, wfListF, withinLimitListF, Bool.and_eq_true]
        exact ⟨⟨by simp only [wfF, decide_eq_true_eq]; omega, hrest.1⟩,
          ⟨by simp only [withinLimitF, decide_eq_true_eq]; exact hv, hrest.2⟩⟩
    exact ⟨⟨by omega, by decide, ⟨by omega, hvals.1⟩⟩, by decide, ⟨by omega, hvals.2⟩⟩
  | rpush key values =>
    simp only [goodWrite, goodKey, Bool.and_eq_true, decide_eq_true_eq,
      Bool.not_eq_true', List.all_eq_true] at h
    obtain ⟨⟨⟨⟨hku, hkl⟩, hne⟩, hall⟩, hlen⟩ := h
    simp only [toFrame, wfF, wfListF, withinLimitF, withinLimitListF,
      Bool.and_eq_true, decide_eq_true_eq, List.length_cons, List.length_map]
    have : MAX_FRAME_SIZE = 2 ^ 26 := by norm_num [MAX_FRAME_SIZE]
    have hvals : wfListF (values.map .bulk) = true ∧
        withinLimitListF (values.map .bulk) = true := by
      clear hne hlen
      induction values with
      | nil => exact ⟨rfl, rfl⟩
      | cons v vs ih =>
        have hv := hall v (List.mem_cons_self _ _)
        simp only [goodVal, decide_eq_true_eq] at hv
        have hrest := ih fun x hx => hall x (List.mem_cons_of_mem _ hx)
        simp only [List.map_cons, wfListF, withinLimitListF, Bool.and_eq_true]
        exact ⟨⟨by simp only [wfF, decide_eq_true_eq]; omega, hrest.1⟩,
          ⟨by simp only [withinLimitF, decide_eq_true_eq]; exact hv, hrest.2⟩⟩
    exact ⟨⟨by omega, by decide, ⟨by omega, hvals.1⟩⟩, by decide, ⟨by omega, hvals.2⟩⟩
  | lpop key count =>
    simp only [goodWrite, goodKey, Bool.and_eq_true, decide_eq_true_eq] at h
    obtain ⟨⟨hku, hkl⟩, hc⟩ := h
    have : MAX_FRAME_SIZE = 2 ^ 26 := by norm_num [MAX_FRAME_SIZE]
    cases count with
    | none =>
      simp only [toFrame, wfF, wfListF, withinLimitF, withinLimitListF,
        Bool.and_eq_true, decide_eq_true_eq, List.length_cons, List.length_nil]
      exact ⟨⟨by omega, by decide, by omega, trivial⟩, by decide, by omega, trivial⟩
    | some n =>
      simp only [decide_eq_true_eq] at hc
      have hlen := natToStr_len_le_19 n hc
      simp only [toFrame, wfF, wfListF, withinLimitF, withinLimitListF,
        Bool.and_eq_true, decide_eq_true_eq, List.length_cons, List.length_nil]
      exact ⟨⟨by omega, by decide, ⟨by omega, by omega, trivial⟩⟩,
        by decide, ⟨by omega, by omega, trivial⟩⟩
  | rpop key count =>
    simp only [goodWrite, goodKey, Bool.and_eq_true, decide_eq_true_eq] at h
    obtain ⟨⟨hku, hkl⟩, hc⟩ := h
    have : MAX_FRAME_SIZE = 2 ^ 26 := by norm_num [MAX_FRAME_SIZE]
    cases count with
    | none =>
      simp only [toFrame, wfF, wfListF, withinLimitF, withinLimitListF,
        Bool.and_eq_true, decide_eq_true_eq, List.length_cons, List.length_nil]
      exact ⟨⟨by omega, by decide, by omega, trivial⟩, by decide, by omega, trivial⟩
    | some n =>
      simp only [decide_eq_true_eq] at hc
      have hlen := natToStr_len_le_19 n hc
      simp only [toFrame, wfF, wfListF, withinLimitF, withinLimitListF,
        Bool.and_eq_true, decide_eq_true_eq, List.length_cons, List.length_nil]
      exact ⟨⟨by omega, by decide, ⟨by omega, by omega, trivial⟩⟩,
        by decide, ⟨by omega, by omega, trivial⟩⟩
  | ping msg => simp [goodWrite] at h
  | echo msg => simp [goodWrite] at h
  | get key => simp [goodWrite] at h
  | existsCmd keys => simp [goodWrite] at h
  | lrange key a b => simp [goodWrite] at h
  | subscribe cs => simp [goodWrite] at h
  | unsubscribe cs => simp [goodWrite] at h
  | publish ch m => simp [goodWrite] at h
  | unknown name => simp [goodWrite] at h

/-! ## Time-irrelevance of write operations on deadline-free stores -/

theorem isExpired_none (e : EntryV) (h : e.expiresAt = none) (now : Nat) :
    e.isExpired now = false := by
  simp [EntryV.isExpired, h]

theorem noDeadline_get (s : Store) (k : Buf) (e : EntryV)
    (h : noDeadline s = true) (hg : storeGet s k = some e) : e.expiresAt = none := by
  induction s with
  | nil => simp [storeGet] at hg
  | cons kv rest ih =>
    obtain ⟨k', e'⟩ := kv
    simp only [noDeadline, List.all_cons, Bool.and_eq_true] at h
    simp only [storeGet] at hg
    by_cases hk : k' = k
    · rw [if_pos hk] at hg
      cases hg
      exact Option.isNone_iff_eq_none.mp h.1
    · rw [if_neg hk] at hg
      exact ih h.2 hg

theorem noDeadline_insert (s : Store) (k : Buf) (e : EntryV)
    (h : noDeadline s = true) (he : e.expiresAt = none) :
    noDeadline (storeInsert s k e) = true := by
  induction s with
  | nil => simp [storeInsert, noDeadline, he]
  | cons kv rest ih =>
    obtain ⟨k', e'⟩ := kv
    simp only [noDeadline, List.all_cons, Bool.and_eq_true] at h
    simp only [storeInsert]
    by_cases hk : k' = k
    · rw [if_pos hk]
      simp only [noDeadline, List.all_cons, Bool.and_eq_true]
      exact ⟨by simp [he], h.2⟩
    · rw [if_neg hk]
      simp only [noDeadline, List.all_cons, Bool.and_eq_true]
      exact ⟨h.1, ih h.2⟩

theorem noDeadline_remove (s : Store) (k : Buf) (h : noDeadline s = true) :
    noDeadline (storeRemove s k) = true := by
  induction s with
  | nil => exact h
  | cons kv rest ih =>
    obtain ⟨k', e'⟩ := kv
    simp only [noDeadline, List.all_cons, Bool.and_eq_true] at h
    simp only [storeRemove]
    by_cases hk : k' = k
    · rw [if_pos hk]; exact h.2
    · rw [if_neg hk]
      simp only [noDeadline, List.all_cons, Bool.and_eq_true]
      exact ⟨h.1, ih h.2⟩

theorem del_cons_snd (s : Store) (k : Buf) (rest : List Buf) :
    (Db.del s (k :: rest)).2 = (Db.del (storeRemove s k) rest).2 := rfl

theorem del_noDeadline (keys : List Buf) :
    ∀ s, noDeadline s = true → noDeadline (Db.del s keys).2 = true := by
  induction keys with
  | nil => intro s hs; exact hs
  | cons k ks ih =>
    intro s hs
    rw [del_cons_snd]
    exact ih _ (noDeadline_remove s k hs)


theorem set_now (s : Store) (key value : Buf) (opts : SetOptionsV)
    (hs : noDeadline s = true) (hexp : opts.expireMs = none) (now now' : Nat) :
    Db.set s now key value opts = Db.set s now' key value opts ∧
    noDeadline (Db.set s now key value opts).2 = true := by
  rcases hget : storeGet s key with _ | e
  · cases hopt : opts.condition with
    | none =>
      constructor
      · unfold Db.set
        rw [hexp, hopt, hget]
        rfl
      · unfold Db.set
        rw [hexp, hopt, hget]
        exact noDeadline_insert s key ⟨.str value, none⟩ hs rfl
    | some c =>
      cases c with
      | nx =>
        constructor
        · unfold Db.set
          rw [hexp, hopt, hget]
          rfl
        · unfold Db.set
          rw [hexp, hopt, hget]
          exact noDeadline_insert s key ⟨.str value, none⟩ hs rfl
      | xx =>
        constructor
        · unfold Db.set
          rw [hexp, hopt, hget]
          rfl
        · unfold Db.set
          rw [hexp, hopt, hget]
          exact hs
  · have hnone := noDeadline_get s key e hs hget
    cases hopt : opts.condition with
    | none =>
      constructor
      · unfold Db.set
        rw [hexp, hopt, hget]
        dsimp only
        rw [isExpired_none e hnone now, isExpired_none e hnone now']
        rfl
      · unfold Db.set
        rw [hexp, hopt, hget]
        dsimp only
        rw [isExpired_none e hnone now]
        exact noDeadline_insert s key ⟨.str value, none⟩ hs rfl
    | some c =>
      cases c with
      | nx =>
        constructor
        · unfold Db.set
          rw [hexp, hopt, hget]
          rfl
        · unfold Db.set
          rw [hexp, hopt, hget]
          exact hs
      | xx =>
        constructor
        · unfold Db.set
          rw [hexp, hopt, hget]
          dsimp only
          rw [isExpired_none e hnone now, isExpired_none e hnone now']
          rfl
        · unfold Db.set
          rw [hexp, hopt, hget]
          dsimp only
          rw [isExpired_none e hnone now]
          exact noDeadline_insert s key ⟨.str value, none⟩ hs rfl

theorem incrBy_now_eq (s : Store) (key : Buf) (delta : Int)
    (hs : noDeadline s = true) (now now' : Nat) :
    Db.incrBy s now key delta = Db.incrBy s now' key delta := by
  rcases hget : storeGet s key with _ | e
  · unfold Db.incrBy
    rw [hget]
    rfl
  · have hnone := noDeadline_get s key e hs hget
    obtain ⟨v, ex⟩ := e
    simp only at hnone
    subst hnone
    unfold Db.incrBy
    rw [hget]
    rfl

theorem incrBy_noDeadline (s : Store) (now : Nat) (key : Buf) (delta : Int)
    (hs : noDeadline s = true) : noDeadline (Db.incrBy s now key delta).2 = true := by
  rcases hget : storeGet s key with _ | e
  · by_cases hb : -(2 ^ 63 : Int) ≤ 0 + delta ∧ 0 + delta ≤ 2 ^ 63 - 1
    · simp only [Db.incrBy, hget]
      rw [show (⟨ValueV.str [48], none⟩ : EntryV).isExpired now = false from rfl]
      simp only [Bool.false_eq_true, if_false]
      rw [show validUtf8 [48] = true from rfl]
      simp only [if_true]
      rw [show rustParseI64 [48] = some 0 from rfl]
      simp only [if_pos hb]
      exact noDeadline_insert s key _ hs rfl
    · simp only [Db.incrBy, hget]
      rw [show (⟨ValueV.str [48], none⟩ : EntryV).isExpired now = false from rfl]
      simp only [Bool.false_eq_true, if_false]
      rw [show validUtf8 [48] = true from rfl]
      simp only [if_true]
      rw [show rustParseI64 [48] = some 0 from rfl]
      simp only [if_neg hb]
      exact noDeadline_insert s key _ hs rfl
  · have hnone := noDeadline_get s key e hs hget
    obtain ⟨v, ex⟩ := e
    simp only at hnone
    subst hnone
    simp only [Db.incrBy, hget]
    rw [show (⟨v, none⟩ : EntryV).isExpired now = false from rfl]
    simp only [Bool.false_eq_true, if_false]
    rcases v with data | items
    · by_cases hv : validUtf8 data = true
      · simp only [hv, if_true]
        rcases hp : rustParseI64 data with _ | n
        · exact noDeadline_insert s key _ hs rfl
        · by_cases hb : -(2 ^ 63 : Int) ≤ n + delta ∧ n + delta ≤ 2 ^ 63 - 1
          · simp only [if_pos hb]
            exact noDeadline_insert s key _ hs rfl
          · simp only [if_neg hb]
            exact noDeadline_insert s key _ hs rfl
      · simp only [Bool.not_eq_true] at hv
        simp only [hv, Bool.false_eq_true, if_false]
        exact noDeadline_insert s key _ hs rfl
    · exact noDeadline_insert s key _ hs rfl

theorem lpush_now_eq (s : Store) (key : Buf) (values : List Buf)
    (hs : noDeadline s = true) (now now' : Nat) :
    Db.lpush s now key values = Db.lpush s now' key values := by
  rcases hget : storeGet s key with _ | e
  · unfold Db.lpush
    rw [hget]
    rfl
  · have hnone := noDeadline_get s key e hs hget
    obtain ⟨v, ex⟩ := e
    simp only at hnone
    subst hnone
    unfold Db.lpush
    rw [hget]
    rfl

theorem lpush_noDeadline (s : Store) (now : Nat) (key : Buf) (values : List Buf)
    (hs : noDeadline s = true) : noDeadline (Db.lpush s now key values).2 = true := by
  rcases hget : storeGet s key with _ | e
  · unfold Db.lpush
    rw [hget]
    exact noDeadline_insert s key _ hs rfl
  · have hnone := noDeadline_get s key e hs hget
    obtain ⟨v, ex⟩ := e
    simp only at hnone
    subst hnone
    unfold Db.lpush
    rw [hget]
    rcases v with data | items
    · exact noDeadline_insert s key _ hs rfl
    · exact noDeadline_insert s key _ hs rfl

theorem rpush_now_eq (s : Store) (key : Buf) (values : List Buf)
    (hs : noDeadline s = true) (now now' : Nat) :
    Db.rpush s now key values = Db.rpush s now' key values := by
  rcases hget : storeGet s key with _ | e
  · unfold Db.rpush
    rw [hget]
    rfl
  · have hnone := noDeadline_get s key e hs hget
    obtain ⟨v, ex⟩ := e
    simp only at hnone
    subst hnone
    unfold Db.rpush
    rw [hget]
    rfl

theorem rpush_noDeadline (s : Store) (now : Nat) (key : Buf) (values : List Buf)
    (hs : noDeadline s = true) : noDeadline (Db.rpush s now key values).2 = true := by
  rcases hget : storeGet s key with _ | e
  · unfold Db.rpush
    rw [hget]
    exact noDeadline_insert s key _ hs rfl
  · have hnone := noDeadline_get s key e hs hget
    obtain ⟨v, ex⟩ := e
    simp only at hnone
    subst hnone
    unfold Db.rpush
    rw [hget]
    rcases v with data | items
    · exact noDeadline_insert s key _ hs rfl
    · exact noDeadline_insert s key _ hs rfl

theorem listPop_now_eq (s : Store) (key : Buf) (count : Option Nat) (fromLeft : Bool)
    (hs : noDeadline s = true) (now now' : Nat) :
    Db.listPop s now key count fromLeft = Db.listPop s now' key count fromLeft := by
  rcases hget : storeGet s key with _ | e
  · unfold Db.listPop
    rw [hget]
  · have hnone := noDeadline_get s key e hs hget
    obtain ⟨v, ex⟩ := e
    simp only at hnone
    subst hnone
    unfold Db.listPop
    rw [hget]
    rfl

theorem listPop_noDeadline (s : Store) (now : Nat) (key : Buf) (count : Option Nat)
    (fromLeft : Bool) (hs : noDeadline s = true) :
    noDeadline (Db.listPop s now key count fromLeft).2 = true := by
  rcases hget : storeGet s key with _ | e
  · unfold Db.listPop
    rw [hget]
    exact hs
  · have hnone := noDeadline_get s key e hs hget
    obtain ⟨v, ex⟩ := e
    simp only at hnone
    subst hnone
    unfold Db.listPop
    rw [hget]
    dsimp only
    rw [show (⟨v, none⟩ : EntryV).isExpired now = false from rfl]
    simp only [Bool.false_eq_true, if_false]
    rcases v with data | items
    · exact hs
    · dsimp only
      split <;> split <;>
        first
          | exact noDeadline_remove s key hs
          | exact noDeadline_insert s key _ hs rfl

theorem execWrite_now (cmd : CommandV) (h : goodWrite cmd = true) (s : Store)
    (hs : noDeadline s = true) (now now' : Nat) :
    execCommandStore cmd now s = execCommandStore cmd now' s ∧
    noDeadline (execCommandStore cmd now s) = true := by
  cases cmd with
  | set k v opts =>
    have hexp : opts.expireMs = none := by
      simp only [goodWrite, Bool.and_eq_true, Option.isNone_iff_eq_none] at h
      exact h.2
    have hx := set_now s k v opts hs hexp now now'
    exact ⟨congrArg Prod.snd hx.1, hx.2⟩
  | del keys => exact ⟨rfl, del_noDeadline keys s hs⟩
  | incr k =>
    exact ⟨congrArg Prod.snd (incrBy_now_eq s k 1 hs now now'),
      incrBy_noDeadline s now k 1 hs⟩
  | decr k =>
    exact ⟨congrArg Prod.snd (incrBy_now_eq s k (-1) hs now now'),
      incrBy_noDeadline s now k (-1) hs⟩
  | lpush k vs =>
    exact ⟨congrArg Prod.snd (lpush_now_eq s k vs hs now now'),
      lpush_noDeadline s now k vs hs⟩
  | rpush k vs =>
    exact ⟨congrArg Prod.snd (rpush_now_eq s k vs hs now now'),
      rpush_noDeadline s now k vs hs⟩
  | lpop k c =>
    exact ⟨congrArg Prod.snd (listPop_now_eq s k c true hs now now'),
      listPop_noDeadline s now k c true hs⟩
  | rpop k c =>
    exact ⟨congrArg Prod.snd (listPop_now_eq s k c false hs now now'),
      listPop_noDeadline s now k c false hs⟩
  | ping msg => simp [goodWrite] at h
  | echo msg => simp [goodWrite] at h
  | get key => simp [goodWrite] at h
  | existsCmd keys => simp [goodWrite] at h
  | lrange key a b => simp [goodWrite] at h
  | subscribe cs => simp [goodWrite] at h
  | unsubscribe cs => simp [goodWrite] at h
  | publish ch m => simp [goodWrite] at h
  | unknown name => simp [goodWrite] at h

theorem applyCommand_eq_exec (cmd : CommandV) (h : goodWrite cmd = true)
    (now : Nat) (s : Store) : applyCommand cmd now s = execCommandStore cmd now s := by
  cases cmd <;> first | rfl | simp [goodWrite] at h

theorem runCommands_now (S : List CommandV) :
    ∀ s nows nows', S.all goodWrite = true → noDeadline s = true →
      runCommands S nows s = runCommands S nows' s ∧
      noDeadline (runCommands S nows s) = true := by
  induction S with
  | nil => intro s _ _ _ hs; exact ⟨rfl, hs⟩
  | cons c cs ih =>
    intro s nows nows' hall hs
    simp only [List.all_cons, Bool.and_eq_true] at hall
    have hstep := execWrite_now c hall.1 s hs (nows.headD 0) (nows'.headD 0)
    refine ⟨?_, ?_⟩
    · simp only [runCommands]
      rw [hstep.1]
      have hnd : noDeadline (execCommandStore c (nows'.headD 0) s) = true := by
        rw [← hstep.1]; exact hstep.2
      exact (ih _ nows.tail nows'.tail hall.2 hnd).1
    · simp only [runCommands]
      exact (ih _ nows.tail nows.tail hall.2 hstep.2).2

theorem encodeF_len_pos (f : FrameV) : 0 < (encodeF f).length :=
  lt_of_lt_of_le (frameDepth_pos f) (depth_le_encode.1 f)

theorem aofBytes_cons (c : CommandV) (cs : List CommandV) :
    aofBytes (c :: cs) = encodeF (toFrame c) ++ aofBytes cs := by
  simp [aofBytes]

theorem replay_loop (S : List CommandV) :
    ∀ fuel pre nows s, S.all goodWrite = true → noDeadline s = true →
      S.length < fuel →
      replayAofFuel fuel (pre ++ aofBytes S) pre.length nows s =
        runCommands S nows s := by
  induction S with
  | nil =>
    intro fuel pre nows s _ _ hfuel
    cases fuel with
    | zero => omega
    | succ f =>
      simp only [replayAofFuel, aofBytes, List.map_nil, List.flatten_nil, List.append_nil]
      rw [if_pos (le_refl _)]
      rfl
  | cons c cs ih =>
    intro fuel pre nows s hall hs hfuel
    simp only [List.all_cons, Bool.and_eq_true] at hall
    cases fuel with
    | zero => omega
    | succ f =>
    have hwf := toFrame_wf c hall.1
    have hlenpos := encodeF_len_pos (toFrame c)
    have hABlen : (aofBytes (c :: cs)).length =
        (encodeF (toFrame c)).length + (aofBytes cs).length := by
      rw [aofBytes_cons, List.length_append]
    have hlt : ¬ ((pre ++ aofBytes (c :: cs)).length ≤ pre.length) := by
      rw [List.length_append]
      omega
    have hdropc : (pre ++ aofBytes (c :: cs)).drop pre.length =
        encodeF (toFrame c) ++ aofBytes cs := by
      rw [show pre ++ aofBytes (c :: cs) = pre ++ (encodeF (toFrame c) ++ aofBytes cs) from
        by rw [aofBytes_cons]]
      exact List.drop_left pre _
    have hdep : frameDepth (toFrame c) ≤ (pre ++ aofBytes (c :: cs)).length + 1 := by
      have h1 := depth_le_encode.1 (toFrame c)
      have h2 : (pre ++ aofBytes (c :: cs)).length =
          pre.length + (aofBytes (c :: cs)).length := List.length_append _ _
      omega
    have hck := check_encode ((pre ++ aofBytes (c :: cs)).length + 1) (toFrame c)
      ⟨pre ++ aofBytes (c :: cs), pre.length⟩ (aofBytes cs) hwf.1 hwf.2 hdep hdropc
    have hpr := parse_encode ((pre ++ aofBytes (c :: cs)).length + 1) (toFrame c)
      ⟨pre ++ aofBytes (c :: cs), pre.length⟩ (aofBytes cs) hwf.1 hdep hdropc
    have hfc : frameCheck ⟨pre ++ aofBytes (c :: cs), pre.length⟩ =
        (.ok (), ⟨pre ++ aofBytes (c :: cs), pre.length + (encodeF (toFrame c)).length⟩) := hck
    have hfp : frameParse ⟨pre ++ aofBytes (c :: cs), pre.length⟩ =
        (.ok (toFrame c),
          ⟨pre ++ aofBytes (c :: cs), pre.length + (encodeF (toFrame c)).length⟩) := hpr
    simp only [replayAofFuel]
    rw [if_neg hlt, hfc]
    dsimp only
    rw [hfp]
    dsimp only
    rw [fromFrame_toFrame c hall.1]
    dsimp only
    rw [applyCommand_eq_exec c hall.1]
    have hstep := execWrite_now c hall.1 s hs (nows.headD 0) (nows.headD 0)
    have hnd : noDeadline (execCommandStore c (nows.headD 0) s) = true := hstep.2
    have hdata : pre ++ aofBytes (c :: cs) = (pre ++ encodeF (toFrame c)) ++ aofBytes cs := by
      rw [aofBytes_cons, List.append_assoc]
    have hpos : pre.length + (encodeF (toFrame c)).length =
        (pre ++ encodeF (toFrame c)).length := (List.length_append _ _).symm
    rw [show runCommands (c :: cs) nows s =
        runCommands cs nows.tail (execCommandStore c (nows.headD 0) s) from rfl]
    rw [hdata, hpos]
    exact ih f (pre ++ encodeF (toFrame c)) nows.tail
      (execCommandStore c (nows.headD 0) s) hall.2 hnd
      (by simp only [List.length_cons] at hfuel; omega)

theorem aofBytes_len_ge (S : List CommandV) : S.length ≤ (aofBytes S).length := by
  induction S with
  | nil => simp [aofBytes]
  | cons c cs ih =>
    rw [aofBytes_cons, List.length_append, List.length_cons]
    have := encodeF_len_pos (toFrame c)
    omega

theorem frameAsInt_intToStr (i : Int) (h1 : -(2 ^ 63) ≤ i) (h2 : i ≤ 2 ^ 63 - 1) :
    frameAsInt (.bulk (intToStr i)) = .ok i := by
  unfold frameAsInt
  dsimp only
  rw [if_pos (validUtf8_intToStr i), rustParseI64_intToStr i h1 h2]

/-! ## The claims -/

/-- C1: the spec requires SET's NX/XX condition to be judged against logical
existence, with an expired entry counted as absent. `Db::set` tests
`contains_key`, which sees the physically present (though expired) entry: on
a store whose only entry for the key is expired at the current instant, NX is
refused and the store is left unchanged, while XX is applied — the opposite
of the specified behaviour in both directions. -/
theorem c1_set_nx_xx_uses_physical_presence :
    (⟨.str [118], some 5⟩ : EntryV).isExpired 10 = true ∧
    Db.set [([107], ⟨.str [118], some 5⟩)] 10 [107] [119] ⟨none, some .nx⟩ =
      (false, [([107], ⟨.str [118], some 5⟩)]) ∧
    (Db.set [([107], ⟨.str [118], some 5⟩)] 10 [107] [119] ⟨none, some .xx⟩).1 = true :=
  ⟨rfl, rfl, rfl⟩

/-- C2: the spec promises `lrange` never fails or panics and returns empty
whenever the normalized bounds are crossed, naming stop = −2 on a one-element
list. In the code that very input normalizes the inclusive end to
`(-1) as usize = 2^64 − 1`, passes the `s > e || s >= len` guard, and the
`range(s..=e)` call panics (end out of range). -/
theorem c2_lrange_stop_minus_two_panics :
    Db.lrange [([107], ⟨.list [[97]], none⟩)] 0 [107] 0 (-2) =
      (.panic, [([107], ⟨.list [[97]], none⟩)]) := rfl

/-- C3: for every well-formed frame (simple/error payloads CRLF-free and
UTF-8, bulk payloads shorter than 2^31, array and integer headers in range),
parsing the encoding from position 0 returns exactly the frame with the
cursor at the end of the encoding. -/
theorem c3_parse_encode_roundtrip (f : FrameV) (h : wfF f = true) :
    frameParse ⟨encodeF f, 0⟩ = (.ok f, ⟨encodeF f, (encodeF f).length⟩) := by
  have hdep : frameDepth f ≤ (encodeF f).length + 1 := by
    have := depth_le_encode.1 f
    omega
  have hdrop : ((⟨encodeF f, 0⟩ : Cur).buf).drop (⟨encodeF f, 0⟩ : Cur).pos =
      encodeF f ++ [] := by simp
  have hx := parse_encode ((encodeF f).length + 1) f ⟨encodeF f, 0⟩ [] h hdep hdrop
  show parseF ((encodeF f).length + 1) ⟨encodeF f, 0⟩ =
    (.ok f, ⟨encodeF f, (encodeF f).length⟩)
  simpa using hx

/-- Witness for C3 on a nested array holding a bulk, a null, an integer, a
simple string and an empty inner array. -/
theorem c3_roundtrip_witness :
    wfF (.array [.bulk [97, 0, 255], .null, .integer (-5), .simple [79, 75],
      .array []]) = true ∧
    frameParse ⟨encodeF (.array [.bulk [97, 0, 255], .null, .integer (-5),
      .simple [79, 75], .array []]), 0⟩ =
      (.ok (.array [.bulk [97, 0, 255], .null, .integer (-5), .simple [79, 75],
        .array []]),
        ⟨encodeF (.array [.bulk [97, 0, 255], .null, .integer (-5),
          .simple [79, 75], .array []]),
          (encodeF (.array [.bulk [97, 0, 255], .null, .integer (-5),
            .simple [79, 75], .array []])).length⟩) :=
  ⟨by decide, c3_parse_encode_roundtrip _ (by decide)⟩

/-- C4: for sequences of decodable write commands — no EX/PX, keys UTF-8 and
within the frame limit, push value lists nonempty, pop counts below 2^63 (so
their decimal form still parses as `i64` on the way back in) — replaying the
AOF written for the sequence against a fresh empty store reproduces exactly
the keyspace of the direct run, whatever instants either run observes. -/
theorem c4_replay_equiv_good_writes (S : List CommandV) (nows1 nows2 : List Nat)
    (h : S.all goodWrite = true) :
    replayRun (aofBytes S) nows2 = runCommands S nows1 [] := by
  have h0 : noDeadline ([] : Store) = true := rfl
  have hfuel : S.length < (aofBytes S).length + 1 := by
    have := aofBytes_len_ge S
    omega
  have hx := replay_loop S ((aofBytes S).length + 1) [] nows2 [] h h0 hfuel
  have hx2 : replayRun (aofBytes S) nows2 = runCommands S nows2 [] := hx
  exact hx2.trans (runCommands_now S [] nows2 nows1 h h0).1

/-- Witness for C4: a SET, an RPUSH of two values, an INCR and a DEL replay
to the same keyspace under different instants. -/
theorem c4_replay_witness :
    ([CommandV.set [107] [118] ⟨none, none⟩, .rpush [108] [[97], [98]],
      .incr [109], .del [[107]]].all goodWrite = true) ∧
    replayRun (aofBytes [CommandV.set [107] [118] ⟨none, none⟩,
      .rpush [108] [[97], [98]], .incr [109], .del [[107]]]) [5, 6, 7, 8] =
      runCommands [CommandV.set [107] [118] ⟨none, none⟩,
        .rpush [108] [[97], [98]], .incr [109], .del [[107]]] [1, 2, 3, 4] [] :=
  ⟨by decide,
    c4_replay_equiv_good_writes
      [CommandV.set [107] [118] ⟨none, none⟩, .rpush [108] [[97], [98]],
        .incr [109], .del [[107]]] [1, 2, 3, 4] [5, 6, 7, 8] (by decide)⟩

set_option maxRecDepth 8000 in
/-- Counterexample to C4 as stated: LPOP with count `usize::MAX` (exactly what
`LPOP k -1` decodes to, a write command with no EX/PX) empties the list in the
direct run, but its canonical frame writes the count as a decimal that no
longer parses as `i64`, so `from_frame` rejects it during replay and the
command is skipped: the replayed keyspace still holds the list. -/
theorem c4_lpop_count_divergence :
    runCommands [CommandV.rpush [107] [[97]],
      .lpop [107] (some (2 ^ 64 - 1))] [0, 0] [] = [] ∧
    replayRun (aofBytes [CommandV.rpush [107] [[97]],
      .lpop [107] (some (2 ^ 64 - 1))]) [0, 0] =
      [([107], ⟨.list [[97]], none⟩)] := by
  refine ⟨rfl, ?_⟩
  have h1 : natToStr 1 = [49] := by simp [natToStr, natDigitsRev]
  have h3 : natToStr 3 = [51] := by simp [natToStr, natDigitsRev]
  have h4 : natToStr 4 = [52] := by simp [natToStr, natDigitsRev]
  have h5 : natToStr 5 = [53] := by simp [natToStr, natDigitsRev]
  have h20 : natToStr 20 = [50, 48] := by simp [natToStr, natDigitsRev]
  have hbig : natToStr 18446744073709551615 = [49, 56, 52, 52, 54, 55, 52, 52, 48, 55, 51, 55, 48, 57, 53, 53, 49, 54, 49, 53] := by
    simp [natToStr, natDigitsRev]
  have ha : ascii "RPUSH" = [82, 80, 85, 83, 72] := rfl
  have hal : ascii "LPOP" = [76, 80, 79, 80] := rfl
  have henc : aofBytes [CommandV.rpush [107] [[97]],
      .lpop [107] (some (2 ^ 64 - 1))] = [42, 51, 13, 10, 36, 53, 13, 10, 82, 80, 85, 83, 72, 13, 10, 36, 49, 13, 10, 107, 13, 10, 36, 49, 13, 10, 97, 13, 10, 42, 51, 13, 10, 36, 52, 13, 10, 76, 80, 79, 80, 13, 10, 36, 49, 13, 10, 107, 13, 10, 36, 50, 48, 13, 10, 49, 56, 52, 52, 54, 55, 52, 52, 48, 55, 51, 55, 48, 57, 53, 53, 49, 54, 49, 53, 13, 10] := by
    simp [aofBytes, toFrame, encodeF, encodeFs, h1, h3, h4, h5, h20, hbig, ha, hal]
  rw [henc]
  rfl

/-- C5 (amended): `Db::del` counts *physically* present keys — its count for
each key is 1 exactly when the key still has an entry in the map, whatever
that entry's expiry state, and each processed key is removed; an expired but
not yet reaped entry therefore contributes 1, not the 0 the spec asks for. -/
theorem c5_del_counts_physical (s : Store) (keys : List Buf) :
    (Db.del s keys).1 = delSpecCount s keys := by
  induction keys generalizing s with
  | nil => rfl
  | cons k ks ih =>
    have hfst : (Db.del s (k :: ks)).1 =
        (if (storeGet s k).isSome then 1 else 0) + (Db.del (storeRemove s k) ks).1 := rfl
    rw [hfst, ih]
    rfl

/-- Counterexample to C5 as stated: deleting the single key of a store whose
only entry is already expired returns count 1, not 0. -/
theorem c5_del_expired_counted :
    (⟨.str [118], some 5⟩ : EntryV).isExpired 10 = true ∧
    Db.del [([107], ⟨.str [118], some 5⟩)] [[107]] = (1, []) :=
  ⟨rfl, rfl⟩

/-- C6 (amended): on every strict prefix of the encoding of a well-formed
frame that is within the 64 MiB limit, `check` reports Incomplete — but it
may leave the cursor past its starting position (the spec's "does not
advance" clause fails; the connection copes by re-deriving positions from a
fresh cursor on every attempt). -/
theorem c6_incomplete_on_strict_prefix (f : FrameV) (n : Nat) (h : wfF f = true)
    (hlim : withinLimitF f = true) (hn : n < (encodeF f).length) :
    (frameCheck ⟨(encodeF f).take n, 0⟩).1 = .error .incomplete := by
  have hfuel : n < ((encodeF f).take n).length + 1 := by
    rw [List.length_take]
    omega
  have hdrop : ((encodeF f).take n).drop 0 = (encodeF f).take n := List.drop_zero _
  exact check_take_incomplete (((encodeF f).take n).length + 1) f
    ⟨(encodeF f).take n, 0⟩ n h hlim hn hfuel hdrop

/-- Witness for C6 on the two-byte prefix of the encoding of `+O\r\n`. -/
theorem c6_prefix_witness :
    wfF (.simple [79]) = true ∧ withinLimitF (.simple [79]) = true ∧
    2 < (encodeF (.simple [79])).length ∧
    (frameCheck ⟨(encodeF (.simple [79])).take 2, 0⟩).1 = .error .incomplete :=
  ⟨by decide, by decide, by decide,
    c6_incomplete_on_strict_prefix (.simple [79]) 2 (by decide) (by decide) (by decide)⟩

/-- Counterexample to C6's no-advance clause: on the strict prefix `+O` of a
well-formed simple-string encoding, `check` returns Incomplete with the
cursor at position 1, having consumed the type byte. -/
theorem c6_cursor_advance_on_incomplete :
    wfF (.simple [79]) = true ∧
    (encodeF (.simple [79])).take 2 = [43, 79] ∧
    frameCheck ⟨[43, 79], 0⟩ = (.error .incomplete, ⟨[43, 79], 1⟩) :=
  ⟨rfl, rfl, rfl⟩

/-- C7: `incr_by` with delta ±1 (the incr/decr paths) behaves exactly as the
spec's read-modify-write: an absent key or an expired entry acts as prior
value 0 with no deadline and stores 0±1; a string that is not valid UTF-8 or
does not parse as a decimal `i64` fails with NotAnInteger; an addition
leaving the `i64` range fails with NotAnInteger; a list value fails with
WrongType; on success the textual decimal of the new value is stored back
under the entry's deadline. -/
theorem c7_incr_decr_exact_semantics (s : Store) (now : Nat) (key : Buf)
    (delta : Int) (hd : delta = 1 ∨ delta = -1) :
    (storeGet s key = none →
      Db.incrBy s now key delta =
        (.ok delta, storeInsert s key ⟨.str (intToStr delta), none⟩)) ∧
    (∀ e, storeGet s key = some e → e.isExpired now = true →
      Db.incrBy s now key delta =
        (.ok delta, storeInsert s key ⟨.str (intToStr delta), none⟩)) ∧
    (∀ e data, storeGet s key = some e → e.isExpired now = false →
      e.value = .str data → validUtf8 data = false →
      (Db.incrBy s now key delta).1 = .error .notAnInteger) ∧
    (∀ e data, storeGet s key = some e → e.isExpired now = false →
      e.value = .str data → validUtf8 data = true → rustParseI64 data = none →
      (Db.incrBy s now key delta).1 = .error .notAnInteger) ∧
    (∀ e data m, storeGet s key = some e → e.isExpired now = false →
      e.value = .str data → validUtf8 data = true → rustParseI64 data = some m →
      ¬(-(2 ^ 63) ≤ m + delta ∧ m + delta ≤ 2 ^ 63 - 1) →
      (Db.incrBy s now key delta).1 = .error .notAnInteger) ∧
    (∀ e items, storeGet s key = some e → e.isExpired now = false →
      e.value = .list items → (Db.incrBy s now key delta).1 = .error .wrongType) ∧
    (∀ e data m, storeGet s key = some e → e.isExpired now = false →
      e.value = .str data → validUtf8 data = true → rustParseI64 data = some m →
      -(2 ^ 63) ≤ m + delta → m + delta ≤ 2 ^ 63 - 1 →
      Db.incrBy s now key delta =
        (.ok (m + delta), storeInsert s key ⟨.str (intToStr (m + delta)), e.expiresAt⟩)) := by
  refine ⟨?_, ?_, ?_, ?_, ?_, ?_, ?_⟩
  · intro hget
    rcases hd with hd | hd <;> subst hd <;> (unfold Db.incrBy; rw [hget]; rfl)
  · intro e hget hexp
    rcases hd with hd | hd <;> subst hd <;>
      (unfold Db.incrBy; rw [hget]; dsimp only; rw [hexp]; rfl)
  · intro e data hget hexpf hval hutf
    simp only [Db.incrBy, hget]
    rw [hexpf]
    simp only [Bool.false_eq_true, if_false]
    rw [hval]
    dsimp only
    rw [hutf]
    simp only [Bool.false_eq_true, if_false]
  · intro e data hget hexpf hval hutf hparse
    simp only [Db.incrBy, hget]
    rw [hexpf]
    simp only [Bool.false_eq_true, if_false]
    rw [hval]
    dsimp only
    rw [hutf]
    simp only [if_true]
    rw [hparse]
  · intro e data m hget hexpf hval hutf hparse hb
    simp only [Db.incrBy, hget]
    rw [hexpf]
    simp only [Bool.false_eq_true, if_false]
    rw [hval]
    dsimp only
    rw [hutf]
    simp only [if_true]
    rw [hparse]
    simp only [if_neg hb]
  · intro e items hget hexpf hval
    simp only [Db.incrBy, hget]
    rw [hexpf]
    simp only [Bool.false_eq_true, if_false]
    rw [hval]
  · intro e data m hget hexpf hval hutf hparse hb1 hb2
    simp only [Db.incrBy, hget]
    rw [hexpf]
    simp only [Bool.false_eq_true, if_false]
    rw [hval]
    dsimp only
    rw [hutf]
    simp only [if_true]
    rw [hparse]
    simp only [if_pos (And.intro hb1 hb2)]

/-- Witness for C7: incrementing a live string entry "5" stores "6". -/
theorem c7_incr_witness :
    Db.incrBy [([107], ⟨.str [53], none⟩)] 0 [107] 1 =
      (.ok 6, storeInsert [([107], ⟨.str [53], none⟩)] [107] ⟨.str (intToStr 6), none⟩) :=
  (c7_incr_decr_exact_semantics [([107], ⟨.str [53], none⟩)] 0 [107] 1
    (Or.inl rfl)).2.2.2.2.2.2 ⟨.str [53], none⟩ [53] 5 rfl rfl rfl rfl rfl
    (by decide) (by decide)

/-- C8: the spec's command table lists DBSIZE (arity 0), and promises that
only names outside the table decode to Unknown. `from_frame` has no DBSIZE
arm, so the one-element array ["DBSIZE"] (any letter case — names are
uppercased first) decodes to `Unknown("DBSIZE")`; the execution path that
would serve it matches a `Command::DbSize` variant that the `Command` enum
does not declare. -/
theorem c8_dbsize_decodes_to_unknown :
    fromFrame (.array [.bulk (ascii "DBSIZE")]) = .ok (.unknown (ascii "DBSIZE")) ∧
    fromFrame (.array [.bulk (ascii "dbsize")]) = .ok (.unknown (ascii "DBSIZE")) :=
  ⟨rfl, rfl⟩

/-- C9: a negative decimal count supplied to LPOP or RPOP decodes
successfully — the parsed `i64` is cast `as usize`, i.e. reduced modulo 2^64
(`-1` becomes 2^64 − 1) — and such a count pops the entire list from either
end (it meets or exceeds every list length up to 2^63). -/
theorem c9_pop_negative_count_modulo (key : Buf) (n : Int)
    (hk : validUtf8 key = true) (h1 : -(2 ^ 63) ≤ n) (h2 : n < 0) :
    (fromFrame (.array [.bulk (ascii "LPOP"), .bulk key, .bulk (intToStr n)]) =
      .ok (.lpop key (some (usizeOfInt n)))) ∧
    (fromFrame (.array [.bulk (ascii "RPOP"), .bulk key, .bulk (intToStr n)]) =
      .ok (.rpop key (some (usizeOfInt n)))) ∧
    usizeOfInt n = (n + 2 ^ 64).toNat ∧
    (∀ s now k items, storeGet s k = some ⟨.list items, none⟩ →
      items.length ≤ 2 ^ 63 →
      Db.lpop s now k (some (usizeOfInt n)) = (.ok items, storeRemove s k)) ∧
    (∀ s now k items, storeGet s k = some ⟨.list items, none⟩ →
      items.length ≤ 2 ^ 63 →
      Db.rpop s now k (some (usizeOfInt n)) =
        (.ok items.reverse, storeRemove s k)) := by
  have hmod : n % (2 ^ 64 : Int) = n + 2 ^ 64 := by omega
  have husz : usizeOfInt n = (n + 2 ^ 64).toNat := by rw [usizeOfInt, hmod]
  refine ⟨?_, ?_, husz, ?_, ?_⟩
  · rw [show fromFrame (.array [.bulk (ascii "LPOP"), .bulk key, .bulk (intToStr n)]) =
      (match frameAsString (.bulk key) with
       | .error e => Except.error e
       | .ok k =>
         match frameAsInt (.bulk (intToStr n)) with
         | .error e => Except.error e
         | .ok i => Except.ok (CommandV.lpop k (some (usizeOfInt i)))) from rfl]
    rw [frameAsString_bulk key hk, frameAsInt_intToStr n h1 (by omega)]
  · rw [show fromFrame (.array [.bulk (ascii "RPOP"), .bulk key, .bulk (intToStr n)]) =
      (match frameAsString (.bulk key) with
       | .error e => Except.error e
       | .ok k =>
         match frameAsInt (.bulk (intToStr n)) with
         | .error e => Except.error e
         | .ok i => Except.ok (CommandV.rpop k (some (usizeOfInt i)))) from rfl]
    rw [frameAsString_bulk key hk, frameAsInt_intToStr n h1 (by omega)]
  · intro s now k items hget hlen
    have hbig : items.length ≤ usizeOfInt n := by
      rw [husz]
      omega
    unfold Db.lpop Db.listPop
    rw [hget]
    dsimp only
    rw [show (⟨ValueV.list items, none⟩ : EntryV).isExpired now = false from rfl]
    simp only [Bool.false_eq_true, if_false]
    dsimp only [Option.getD]
    rw [Nat.min_eq_right hbig]
    rw [List.take_length, List.drop_length]
    simp only [List.isEmpty_nil, if_true]
  · intro s now k items hget hlen
    have hbig : items.length ≤ usizeOfInt n := by
      rw [husz]
      omega
    have hrev : List.take items.length items.reverse = items.reverse := by
      rw [← List.length_reverse, List.take_length]
    unfold Db.rpop Db.listPop
    rw [hget]
    dsimp only
    rw [show (⟨ValueV.list items, none⟩ : EntryV).isExpired now = false from rfl]
    simp only [Bool.false_eq_true, if_false]
    dsimp only [Option.getD]
    rw [Nat.min_eq_right hbig]
    rw [Nat.sub_self, List.take_zero, hrev]
    simp only [List.isEmpty_nil, if_true]

/-- Witness for C9 at count −1 on a two-element list, popped from both ends. -/
theorem c9_pop_minus_one_witness :
    (fromFrame (.array [.bulk (ascii "LPOP"), .bulk [107], .bulk (intToStr (-1))]) =
      .ok (.lpop [107] (some (usizeOfInt (-1))))) ∧
    (fromFrame (.array [.bulk (ascii "RPOP"), .bulk [107], .bulk (intToStr (-1))]) =
      .ok (.rpop [107] (some (usizeOfInt (-1))))) ∧
    Db.lpop [([107], ⟨.list [[97], [98]], none⟩)] 0 [107] (some (usizeOfInt (-1))) =
      (.ok [[97], [98]], storeRemove [([107], ⟨.list [[97], [98]], none⟩)] [107]) ∧
    Db.rpop [([107], ⟨.list [[97], [98]], none⟩)] 0 [107] (some (usizeOfInt (-1))) =
      (.ok [[98], [97]], storeRemove [([107], ⟨.list [[97], [98]], none⟩)] [107]) :=
  ⟨(c9_pop_negative_count_modulo [107] (-1) (by decide) (by decide) (by decide)).1,
    (c9_pop_negative_count_modulo [107] (-1) (by decide) (by decide) (by decide)).2.1,
    (c9_pop_negative_count_modulo [107] (-1) (by decide) (by decide) (by decide)).2.2.2.1
      [([107], ⟨.list [[97], [98]], none⟩)] 0 [107] [[97], [98]] rfl (by decide),
    (c9_pop_negative_count_modulo [107] (-1) (by decide) (by decide) (by decide)).2.2.2.2
      [([107], ⟨.list [[97], [98]], none⟩)] 0 [107] [[97], [98]] rfl (by decide)⟩

/-- C10: whenever `check` succeeds, `parse` on the same bytes can only fail
with InvalidEncoding or InvalidInteger (never Incomplete), and when it
succeeds it leaves the cursor exactly where `check` did; in particular on the
encoding of any well-formed within-limit frame both succeed and both consume
exactly the encoding — the agreement `Connection::parse_frame` relies on when
it uses check's final position as the frame length. -/
theorem c10_check_parse_agreement :
    (∀ c c1, frameCheck c = (.ok (), c1) →
      (∀ f c2, frameParse c = (.ok f, c2) → c2 = c1) ∧
      (∀ e c2, frameParse c = (.error e, c2) →
        e = .invalidEncoding ∨ e = .invalidInteger)) ∧
    (∀ f c rest, wfF f = true → withinLimitF f = true →
      c.buf.drop c.pos = encodeF f ++ rest →
      frameCheck c = (.ok (), ⟨c.buf, c.pos + (encodeF f).length⟩) ∧
      frameParse c = (.ok f, ⟨c.buf, c.pos + (encodeF f).length⟩)) := by
  constructor
  · intro c c1 hck
    exact check_parse_rel (c.buf.length + 1) c c1 hck
  · intro f c rest hwf hlim hdrop
    have h1 := depth_le_encode.1 f
    have h2 : (encodeF f).length + rest.length = (c.buf.drop c.pos).length := by
      rw [hdrop, List.length_append]
    have h3 : (c.buf.drop c.pos).length ≤ c.buf.length := by
      rw [List.length_drop]
      omega
    have hdep : frameDepth f ≤ c.buf.length + 1 := by omega
    exact ⟨check_encode (c.buf.length + 1) f c rest hwf hlim hdep hdrop,
      parse_encode (c.buf.length + 1) f c rest hwf hdep hdrop⟩

/-- Witness for C10: check consumes exactly the five bytes of `$-1\r\n`. -/
theorem c10_agreement_witness :
    frameCheck ⟨encodeF .null, 0⟩ =
      (.ok (), ⟨encodeF .null, 0 + (encodeF .null).length⟩) :=
  (c10_check_parse_agreement.2 .null ⟨encodeF .null, 0⟩ [] rfl rfl (by simp)).1
